import Mathlib

/-!
Verification development for the weave orchestration engine.

Shallow embedding of the core components:
- core/graph.py      : DependencyGraph.build / validate / get_execution_order
- core/memory.py     : ShortTermMemory (apply_strategy, compaction)
- state/manager.py   : StateManager lock operations
- runtime/executor.py: Executor.execute_flow and its agent loop

Machine reals (wall-clock times) and I/O handles are abstracted away:
delays and state-manager calls are recorded as explicit effect events,
the file system backing the lock is a value of type Option LockFileM,
and process liveness (os.kill(pid, 0)) is an oracle Nat -> Bool, following
the injectable isProcessAlive abstraction called out by the design notes.
-/

namespace Weave

/-- One agent as the graph and executor see it, translated from the Agent
pydantic model (core/models.py): a name, at most one upstream input
(another agent's name), an optional output key (defaults to the name),
whether a memory config is present, and whether a storage config with
save_outputs is present.  Prompt/model/tool fields do not influence the
claims and are dropped. -/
structure AgentNode where
  name : String
  inputs : Option String := none
  outputs : Option String := none
  memory : Bool := false
  storage : Option Bool := none
  deriving DecidableEq, Repr

/-- Declaration-ordered node-name list of the graph, matching the node
insertion order of the networkx DiGraph built by DependencyGraph.build. -/
def nodeNames (g : List AgentNode) : List String :=
  g.map (·.name)

/-- The declared input reference after Python truthiness: code guarding on
agent.inputs treats an empty string like an absent one. -/
def inputOf (a : AgentNode) : Option String :=
  match a.inputs with
  | some u => if u.isEmpty then none else some u
  | none => none

/-- The unique parent of a node: the graph has fan-in at most one because
Agent.inputs is Optional[str].  Edges are input -> agent. -/
def parentOf (g : List AgentNode) (x : String) : Option String :=
  match g.find? (fun a => a.name == x) with
  | some a => inputOf a
  | none => none

/-- Follow parent pointers for k steps; none once a parentless node (or a
name that is not a node) is passed. -/
def walk (g : List AgentNode) (x : String) : Nat → Option String
  | 0 => some x
  | k + 1 => (walk g x k).bind (parentOf g)

/-- Every declared input resolves to a node of the same graph.  This is
exactly what DependencyGraph.build enforces before adding an edge,
raising GraphError otherwise. -/
def ClosedB (g : List AgentNode) : Bool :=
  g.all (fun a => match inputOf a with
    | some u => u ∈ nodeNames g
    | none => true)

/-- DependencyGraph.build, for one weave whose agent list is already
resolved: re-checks that each (truthy) input reference stays inside the
weave's own agent set and otherwise returns the graph unchanged.  The
weave-name lookup into the validated config is config-loading glue and
is not modelled. -/
def build (g : List AgentNode) : Except String (List AgentNode) :=
  if ClosedB g then .ok g else .error "input reference outside weave"

/-- A nonempty node list is a cycle when each entry's parent is the next
entry, cyclically. -/
def isCycle (g : List AgentNode) (p : List String) : Bool :=
  !p.isEmpty &&
    (List.range p.length).all
      (fun i => parentOf g (p.getD i "") == some (p.getD ((i + 1) % p.length) ""))

/-- Cycle detection: a node whose parent chain survives as many steps as
there are nodes must sit on a lasso ending in a cycle.  This decides
the same predicate as nx.is_directed_acyclic_graph on the fan-in-one
graphs produced by build. -/
def hasCycle (g : List AgentNode) : Bool :=
  g.any (fun a => (walk g a.name g.length).isSome)

/-- Extract one concrete cycle path, in parent direction: walk g.length
steps from a surviving node to land on the cycle, then list the nodes
until the first return.  Plays the role of nx.simple_cycles()[0] used
by DependencyGraph.validate to format its report. -/
def findCycle (g : List AgentNode) : Option (List String) :=
  match g.find? (fun a => (walk g a.name g.length).isSome) with
  | none => none
  | some a =>
    let y := (walk g a.name g.length).getD a.name
    match (List.range (g.length + 1)).find?
        (fun m => decide (0 < m) && (walk g y m == some y)) with
    | some m => some ((List.range m).map (fun k => (walk g y k).getD y))
    | none => none

/-- Errors raised by the graph component (core/exceptions.GraphError),
split by report shape: a circular-dependency report carrying the cycle
path, and the empty-graph report. -/
inductive GraphErrorM where
  | circular (path : List String)
  | empty
  deriving DecidableEq, Repr

/-- DependencyGraph.validate: report a concrete cycle if one exists, then
fail on a graph with zero nodes, else succeed. -/
def validate (g : List AgentNode) : Except GraphErrorM Unit :=
  match findCycle g with
  | some p => .error (.circular p)
  | none =>
    if g.length = 0 then .error .empty else .ok ()

/-- Children of a node in declaration order: edges are added by build while
iterating the weave's agents in declaration order, so the networkx
adjacency of u lists u's children ordered by the child's declaration. -/
def childrenOf (g : List AgentNode) (u : String) : List String :=
  (g.filter (fun a => inputOf a == some u)).map (·.name)

/-- Generation k of the Kahn-by-generations order computed by
nx.topological_sort (which flattens nx.topological_generations).
Generation 0 is the declaration-ordered list of parentless nodes; since
fan-in is at most one, a node's in-degree reaches zero exactly when its
unique parent is emitted, so generation k+1 is the concatenation of the
children of generation k, in processing order. -/
def gens (g : List AgentNode) : Nat → List String
  | 0 => (g.filter (fun a => inputOf a == none)).map (·.name)
  | k + 1 => (gens g k).flatMap (childrenOf g)

/-- The flattened generations: on an acyclic graph every generation index
is below the node count, and trailing empty generations contribute
nothing, so this is the full nx.topological_sort output. -/
def execOrderList (g : List AgentNode) : List String :=
  (List.range g.length).flatMap (gens g)

/-- The exception escaping DependencyGraph.get_execution_order on a cyclic
graph: nx.topological_sort raises nx.NetworkXUnfeasible, which is not a
subclass of the nx.NetworkXError named by the except clause, so the
exception propagates untranslated instead of being re-raised as
GraphError. -/
inductive NxException where
  | networkXUnfeasible
  deriving DecidableEq, Repr

/-- DependencyGraph.get_execution_order: on a cyclic graph the
NetworkXUnfeasible exception raised by nx.topological_sort escapes (the
except clause names nx.NetworkXError, which does not cover it);
otherwise the generation-flattened order is returned. -/
def getExecutionOrder (g : List AgentNode) : Except NxException (List String) :=
  if hasCycle g then .error .networkXUnfeasible else .ok (execOrderList g)

/-- A node is ready after a prefix of the schedule when it is a node, has
not been emitted yet, and its parent (if any) has been emitted: it has
no remaining dependency. -/
def readyAt (g : List AgentNode) (done : List String) (v : String) : Bool :=
  (nodeNames g).contains v && !(done.contains v) &&
    (match parentOf g v with
     | some u => done.contains u
     | none => true)

/-- The declaration-order tie-break property claimed by the spec: at every
position of the schedule, the emitted node is the declaration-first
among the nodes with no remaining dependency. -/
def declOrderTieBreak (g : List AgentNode) (order : List String) : Bool :=
  (List.range order.length).all (fun i =>
    (nodeNames g).all (fun v =>
      !(readyAt g (order.take i) v) ||
        decide (List.indexOf (order.getD i "") (nodeNames g) ≤
          List.indexOf v (nodeNames g))))

/-- A conversation message (core/sessions.ConversationMessage): role and
content.  The timestamp and metadata fields never influence the memory
strategies and are dropped. -/
structure Msg where
  role : String
  content : String
  deriving DecidableEq, Repr

/-- memory.estimate_tokens: len(text) divided by 4, the coarse heuristic. -/
def estimate_tokens (text : String) : Nat :=
  text.length / 4

/-- memory.count_message_tokens: sum of the per-message estimates. -/
def count_message_tokens (messages : List Msg) : Nat :=
  (messages.map (fun m => estimate_tokens m.content)).sum

/-- ShortTermMemory configuration plus its one piece of mutable state, the
cached summary message. -/
structure ShortTermMemory where
  strategy : String := "buffer"
  maxMessages : Nat := 100
  contextWindow : Nat := 4000
  summarizeAfter : Option Nat := none
  summaryMessage : Option Msg := none
  deriving DecidableEq, Repr

/-- ShortTermMemory._should_compact: false when a summary is already cached
or fewer than 5 messages exist; then true when the token estimate
exceeds context_window, or when summarize_after is set (Python-truthy,
so 0 counts as unset) and the message count exceeds it. -/
def should_compact (stm : ShortTermMemory) (messages : List Msg) : Bool :=
  if stm.summaryMessage.isSome || messages.length < 5 then
    false
  else if count_message_tokens messages > stm.contextWindow then
    true
  else
    match stm.summarizeAfter with
    | some k => decide (k ≠ 0) && decide (messages.length > k)
    | none => false

/-- The synthesized summary content of _compact_messages: header lines plus
one role-prefixed line, truncated to 200 characters, for every other
old message (stride 2 from index 0). -/
def summaryContent (old : List Msg) : String :=
  let sampled := (old.enum.filter (fun p => p.1 % 2 == 0)).map (·.2)
  let lines := sampled.map (fun m =>
    "- " ++ m.role.capitalize ++ ": " ++ (m.content.take 200) ++
      (if m.content.length > 200 then "..." else ""))
  String.intercalate "\n"
    (["## Conversation Summary",
      s!"The following is a summary of {old.length} earlier messages:\n"] ++ lines)

/-- ShortTermMemory._compact_messages: no-op on at most 10 messages; split
system from conversational messages, keep the last 10 conversational
verbatim, no-op when no older conversational message remains; else cache
one synthesized system summary and return system messages, the summary,
and the last 10 conversational messages.  Returns the updated summary
cache alongside the message list. -/
def compact_messages (stm : ShortTermMemory) (messages : List Msg) :
    Option Msg × List Msg :=
  if messages.length ≤ 10 then
    (stm.summaryMessage, messages)
  else
    let systemMessages := messages.filter (fun m => m.role == "system")
    let conversationMessages := messages.filter (fun m => m.role != "system")
    let recentMessages := conversationMessages.drop (conversationMessages.length - 10)
    let oldMessages := conversationMessages.take (conversationMessages.length - 10)
    if oldMessages.isEmpty then
      (stm.summaryMessage, messages)
    else
      let summary : Msg := ⟨"system", summaryContent oldMessages⟩
      (some summary, systemMessages ++ [summary] ++ recentMessages)

/-- ShortTermMemory._apply_buffer: keep everything while within
max_messages, else all system messages plus the Python slice
other_messages[-(max_messages - #system):].  The slice index is a
Python int: for a positive k the slice keeps the last k non-system
messages; for k = 0 (negated, still 0) it keeps them all; and when
max_messages < #system the index is positive, dropping the first
#system - max_messages non-system messages. -/
def apply_buffer (stm : ShortTermMemory) (messages : List Msg) : List Msg :=
  if messages.length ≤ stm.maxMessages then
    messages
  else
    let systemMessages := messages.filter (fun m => m.role == "system")
    let otherMessages := messages.filter (fun m => m.role != "system")
    let k : Int := (stm.maxMessages : Int) - systemMessages.length
    systemMessages ++
      (if 0 < k then otherMessages.drop (otherMessages.length - k.toNat)
       else otherMessages.drop (-k).toNat)

/-- ShortTermMemory._apply_sliding_window: keep only the last max_messages
messages regardless of role. -/
def apply_sliding_window (stm : ShortTermMemory) (messages : List Msg) : List Msg :=
  if messages.length ≤ stm.maxMessages then
    messages
  else
    messages.drop (messages.length - stm.maxMessages)

/-- ShortTermMemory.apply_strategy: optionally compact, then apply the
configured strategy (buffer also being the fallback).  Returns the
updated instance state (summary cache) with the filtered list. -/
def apply_strategy (stm : ShortTermMemory) (messages : List Msg)
    (autoCompact : Bool := true) : ShortTermMemory × List Msg :=
  let (summary, messages) :=
    if autoCompact && should_compact stm messages then
      compact_messages stm messages
    else
      (stm.summaryMessage, messages)
  let stm := { stm with summaryMessage := summary }
  if stm.strategy == "buffer" || stm.strategy == "auto_compact" then
    (stm, apply_buffer stm messages)
  else if stm.strategy == "sliding_window" then
    (stm, apply_sliding_window stm messages)
  else
    (stm, apply_buffer stm messages)

/-- The lock record (state/manager.LockFile).  Hostname, timestamp, user
and metadata never influence control flow and are dropped; pid drives
the liveness check. -/
structure LockFileM where
  weaveName : String
  runId : String
  pid : Nat
  deriving DecidableEq, Repr

/-- The lock file on disk: none when absent.  Read errors on corrupted
files are outside this model, which stores structured records only. -/
abbrev LockFS := Option LockFileM

/-- StateManager.is_locked: false when no lock file exists; otherwise check
the owning process via os.kill(pid, 0), modelled by the alive oracle.
A dead owner makes the lock stale: it is removed (release_lock) and
reported unlocked.  Returns the possibly self-healed file system. -/
def is_locked (fs : LockFS) (alive : Nat → Bool) : Bool × LockFS :=
  match fs with
  | none => (false, none)
  | some l => if alive l.pid then (true, some l) else (false, none)

/-- StateManager.release_lock: delete the lock file if present, reporting
whether one existed. -/
def release_lock (fs : LockFS) : Bool × LockFS :=
  (fs.isSome, none)

/-- StateManager.create_lock: raise RuntimeError when is_locked reports a
live lock, otherwise write a fresh record owned by the calling pid. -/
def create_lock (fs : LockFS) (alive : Nat → Bool)
    (weaveName runId : String) (pid : Nat) :
    Except String (LockFileM × LockFS) :=
  let (locked, _) := is_locked fs alive
  if locked then
    .error "Weave is already locked. Remove the lock file or wait for execution to complete."
  else
    let lock : LockFileM := ⟨weaveName, runId, pid⟩
    .ok (lock, some lock)

/-- Python-truthiness fallback used twice by the executor, as in the
expression agent.outputs or agent_name: an absent or empty string falls
back to the default. -/
def pyOr (o : Option String) (dflt : String) : String :=
  match o with
  | some s => if s.isEmpty then dflt else s
  | none => dflt

/-- The output key an agent's result is stored under: agent.outputs or the
agent name. -/
def keyOf (a : AgentNode) : String :=
  pyOr a.outputs a.name

/-- The payload shapes the executor produces, one per dict literal in
executor.py: the dry-run canned payload, the content dict built from an
LLM response (model and finish_reason folded into the content string),
and the error-shaped dict built when an agent exhausts its retries. -/
inductive Payload where
  | dryRun
  | llm (content : String)
  | error (msg : String)
  deriving DecidableEq, Repr

/-- runtime/executor.AgentOutput: name, output key, payload and status.
Wall-clock execution_time and tokens_used are real-time measurements
outside the model. -/
structure AgentOutputM where
  agentName : String
  outputKey : String
  data : Payload
  status : String
  deriving DecidableEq, Repr

/-- Observable operations the executor performs on its collaborators,
recorded in program order: hook invocations, the dry-run simulated
delay, retry backoff sleeps (in seconds), memory-manager use, the call
into the external Agent Runner together with the resolved input
context, attribute dispatch on the state manager, and storage writes. -/
inductive Effect where
  | beforeHooks (agent : String)
  | afterHooks (agent : String)
  | simDelay (agent : String)
  | backoff (seconds : Nat)
  | memoryUse (agent : String)
  | runnerCall (agent : String) (context : Option Payload)
  | smCall (method : String)
  | storageSave (agent : String)
  deriving DecidableEq, Repr

/-- The methods the StateManager class actually defines
(state/manager.py). -/
def stateManagerMethods : List String :=
  ["create_run_id", "save_state", "load_state", "load_all_states",
   "get_latest_state", "create_lock", "release_lock", "is_locked",
   "read_lock", "cleanup_old_states", "list_runs"]

/-- The state-manager methods the executor dispatches during a real run
(executor.py _create_execution_state, _update_agent_state,
_finalize_execution_state). -/
def executorStateMethodCalls : List String :=
  ["create_execution_state", "update_agent_status", "finalize_execution"]

/-- Python exceptions the modelled control flow can raise. -/
inductive PyErr where
  | attributeError (method : String)
  | keyError (key : String)
  | networkXUnfeasible
  deriving DecidableEq, Repr

/-- The message of the AttributeError raised when a missing state-manager
method is dispatched. -/
def attrMsg (method : String) : String :=
  "'StateManager' object has no attribute '" ++ method ++ "'"

/-- The external Agent Runner (llm_executor.execute_agent as the engine
sees it): per agent and per attempt, either a completed content string
or a raised provider/transport exception. -/
abbrev Runner := String → Nat → Except String String

/-- Dict lookup in the run-scoped output map, keyed by output key. -/
def lookupOut (outputs : List (String × AgentOutputM)) (k : String) :
    Option AgentOutputM :=
  (outputs.find? (fun p => p.1 == k)).map (·.2)

/-- Python dict assignment on the output map: replace in place when the
key exists, else append. -/
def storeOut (outputs : List (String × AgentOutputM)) (k : String)
    (out : AgentOutputM) : List (String × AgentOutputM) :=
  if (outputs.find? (fun p => p.1 == k)).isSome then
    outputs.map (fun p => if p.1 == k then (k, out) else p)
  else
    outputs ++ [(k, out)]

/-- The input context resolved for an agent (executor.py lines 447-450):
when the agent declares a (truthy) input and that agent name appears as
a key of the output map, the single context entry holds that stored
payload; otherwise the context dict stays empty. -/
def contextOf (outputs : List (String × AgentOutputM)) (a : AgentNode) :
    Option Payload :=
  match inputOf a with
  | some u => (lookupOut outputs u).map (·.data)
  | none => none

/-- Executor._execute_agent for one attempt: before_agent hooks first; a
dry run simulates with a fixed short delay and the canned payload and
still fires after_agent hooks; a real run sets up the memory manager
when configured, resolves the input context, invokes the Agent Runner,
and fires after_agent hooks only when the runner returned (exceptions
propagate to the retry wrapper). -/
def execute_agent (a : AgentNode) (dry : Bool)
    (outputs : List (String × AgentOutputM)) (runner : Runner)
    (attempt : Nat) : List Effect × Except String AgentOutputM :=
  let before := [Effect.beforeHooks a.name]
  if dry then
    (before ++ [.simDelay a.name, .afterHooks a.name],
     .ok ⟨a.name, keyOf a, .dryRun, "success"⟩)
  else
    let mem := if a.memory then [Effect.memoryUse a.name] else []
    let call := [Effect.runnerCall a.name (contextOf outputs a)]
    match runner a.name attempt with
    | .ok content =>
      (before ++ mem ++ call ++ [.afterHooks a.name],
       .ok ⟨a.name, keyOf a, .llm content, "success"⟩)
    | .error e =>
      (before ++ mem ++ call, .error e)

/-- The retry loop of Executor._execute_agent_with_retry from a given
attempt with a given number of further attempts remaining: on an
exception with attempts remaining, sleep 1 * 2 ^ attempt seconds and
try again; once exhausted, re-raise the last error. -/
def executeAgentFrom (a : AgentNode) (dry : Bool)
    (outputs : List (String × AgentOutputM)) (runner : Runner)
    (attempt : Nat) : Nat → List Effect × Except String AgentOutputM
  | 0 => execute_agent a dry outputs runner attempt
  | r + 1 =>
    match execute_agent a dry outputs runner attempt with
    | (tr, .ok out) => (tr, .ok out)
    | (tr, .error _) =>
      let (tr', res) := executeAgentFrom a dry outputs runner (attempt + 1) r
      (tr ++ [.backoff (2 ^ attempt)] ++ tr', res)

/-- Executor._execute_agent_with_retry: up to max_retries + 1 attempts
starting at attempt 0. -/
def execute_agent_with_retry (a : AgentNode) (dry : Bool)
    (outputs : List (String × AgentOutputM)) (runner : Runner)
    (maxRetries : Nat) : List Effect × Except String AgentOutputM :=
  executeAgentFrom a dry outputs runner 0 maxRetries

/-- Recognizer for backoff-sleep effects. -/
def isBackoff : Effect → Bool
  | .backoff _ => true
  | _ => false

/-- Recognizer for Agent Runner invocations on behalf of a given agent. -/
def isRunnerCallOf (nm : String) : Effect → Bool
  | .runnerCall n _ => n == nm
  | _ => false

/-- Recognizer for the only effects a dry run may produce: hook invocations
and the simulated fixed delay. -/
def isSimEffect : Effect → Bool
  | .beforeHooks _ => true
  | .afterHooks _ => true
  | .simDelay _ => true
  | _ => false

/-- The net outcome of the retry loop as seen from the runner oracle: the
first successful content within the attempt budget, else the last
error. -/
def runnerOutcome (runner : Runner) (nm : String) : Nat → Nat → Except String String
  | attempt, 0 => runner nm attempt
  | attempt, r + 1 =>
    match runner nm attempt with
    | .ok c => .ok c
    | .error _ => runnerOutcome runner nm (attempt + 1) r

/-- The AgentOutput finally recorded for an agent by the loop of
execute_flow: the success output from the first successful attempt, or
the error-shaped output built in the except arm after retries are
exhausted. -/
def finalOutput (runner : Runner) (maxRetries : Nat) (a : AgentNode) : AgentOutputM :=
  match runnerOutcome runner a.name 0 maxRetries with
  | .ok c => ⟨a.name, keyOf a, .llm c, "success"⟩
  | .error e => ⟨a.name, keyOf a, .error e, "failed"⟩

/-- Mutable loop state of execute_flow: the run-scoped output map and the
success/failure counters. -/
structure RunState where
  outputs : List (String × AgentOutputM)
  successful : Nat
  failed : Nat
  deriving DecidableEq, Repr

/-- Executor.execute_flow's return value, minus wall-clock total time. -/
structure ExecutionSummaryM where
  weaveName : String
  totalAgents : Nat
  successful : Nat
  failed : Nat
  outputs : List (String × AgentOutputM)
  deriving DecidableEq, Repr

/-- One iteration of the agent loop in execute_flow (lines 297-347):
look the agent up (a failed lookup raises outside the try block),
execute with retry, then inside the try block store the output, bump
the counters, dispatch update_agent_status when a state manager is
present on a real run (the missing method raises AttributeError, which
the except arm catches, bumping failed and overwriting the stored
output with an error-shaped one), else save to storage when enabled;
an exhausted-retry exception is caught by the same except arm, which
stores the error-shaped output under agent.outputs or the agent name
and continues. -/
def processAgent (g : List AgentNode) (hasSM hasStorage dry : Bool)
    (runner : Runner) (maxRetries : Nat) (st : RunState)
    (agentName : String) : List Effect × Except PyErr RunState :=
  match g.find? (fun a => a.name == agentName) with
  | none => ([], .error (.keyError agentName))
  | some a =>
    let (tr, res) := execute_agent_with_retry a dry st.outputs runner maxRetries
    match res with
    | .ok out =>
      let succ := out.status == "success"
      let st' : RunState :=
        { st with
          outputs := storeOut st.outputs out.outputKey out
          successful := if succ then st.successful + 1 else st.successful
          failed := if succ then st.failed else st.failed + 1 }
      if hasSM && !dry then
        let e := attrMsg "update_agent_status"
        (tr ++ [.smCall "update_agent_status"],
         .ok { st' with
               failed := st'.failed + 1
               outputs := storeOut st'.outputs (keyOf a)
                 ⟨a.name, keyOf a, .error e, "failed"⟩ })
      else
        let trS :=
          if hasStorage && !dry && a.storage.isSome && a.storage == some true then
            [Effect.storageSave a.name]
          else []
        (tr ++ trS, .ok st')
    | .error e =>
      (tr,
       .ok { st with
             failed := st.failed + 1
             outputs := storeOut st.outputs (keyOf a)
               ⟨a.name, keyOf a, .error e, "failed"⟩ })

/-- The agent loop of execute_flow over the computed execution order. -/
def runLoop (g : List AgentNode) (hasSM hasStorage dry : Bool)
    (runner : Runner) (maxRetries : Nat) :
    List String → RunState → List Effect × Except PyErr RunState
  | [], st => ([], .ok st)
  | n :: rest, st =>
    match processAgent g hasSM hasStorage dry runner maxRetries st n with
    | (tr, .ok st') =>
      let (tr', res) := runLoop g hasSM hasStorage dry runner maxRetries rest st'
      (tr ++ tr', res)
    | (tr, .error e) => (tr, .error e)

/-- Executor.execute_flow: compute the execution order (a cycle lets the
uncaught NetworkXUnfeasible escape), create the initial execution state on a real run with a
state manager present (the StateManager class does not define
create_execution_state, so this dispatch raises AttributeError before
any agent runs), execute the agents in order, and finally dispatch
finalize_execution under the same guard before returning the summary.
Session bookkeeping and console output carry no execution semantics and
are not modelled. -/
def execute_flow (g : List AgentNode) (weaveName : String)
    (hasSM hasStorage dry : Bool) (runner : Runner) (maxRetries : Nat) :
    List Effect × Except PyErr ExecutionSummaryM :=
  match getExecutionOrder g with
  | .error _ => ([], .error .networkXUnfeasible)
  | .ok order =>
    if hasSM && !dry then
      ([.smCall "create_execution_state"],
       .error (.attributeError "create_execution_state"))
    else
      let (tr, res) := runLoop g hasSM hasStorage dry runner maxRetries order ⟨[], 0, 0⟩
      match res with
      | .error e => (tr, .error e)
      | .ok st =>
        if hasSM && !dry then
          (tr ++ [.smCall "finalize_execution"],
           .error (.attributeError "finalize_execution"))
        else
          (tr, .ok ⟨weaveName, order.length, st.successful, st.failed, st.outputs⟩)

/-! Lemmas about parent walks and cycle detection. -/

lemma walk_add (g : List AgentNode) (x : String) (a b : Nat) :
    walk g x (a + b) = (walk g x a).bind (fun y => walk g y b) := by
  induction b with
  | zero => simp [walk]
  | succ b ih =>
    rw [← Nat.add_assoc]
    show (walk g x (a + b)).bind (parentOf g) = _
    rw [ih, Option.bind_assoc]
    rfl

lemma walk_one (g : List AgentNode) (x : String) : walk g x 1 = parentOf g x := by
  simp [walk]

lemma walk_succ_front (g : List AgentNode) (x : String) (k : Nat) :
    walk g x (k + 1) = (parentOf g x).bind (fun u => walk g u k) := by
  have h := walk_add g x 1 k
  rw [Nat.add_comm 1 k] at h
  rw [h, walk_one]

lemma walk_none_mono {g : List AgentNode} {x : String} {k m : Nat}
    (h : walk g x k = none) (hle : k ≤ m) : walk g x m = none := by
  obtain ⟨d, rfl⟩ := Nat.exists_eq_add_of_le hle
  rw [walk_add, h]
  rfl

lemma walk_isSome_le {g : List AgentNode} {x : String} {k m : Nat}
    (hle : m ≤ k) (h : (walk g x k).isSome) : (walk g x m).isSome := by
  by_contra hn
  rw [Option.not_isSome_iff_eq_none] at hn
  rw [walk_none_mono hn hle] at h
  simp at h

lemma walk_succ (g : List AgentNode) (x : String) (k : Nat) :
    walk g x (k + 1) = (walk g x k).bind (parentOf g) := rfl

lemma parentOf_eq_some_iff {g : List AgentNode} {z u : String} :
    parentOf g z = some u ↔
      ∃ a, g.find? (fun a => a.name == z) = some a ∧ inputOf a = some u := by
  unfold parentOf
  cases hf : g.find? (fun a => a.name == z) <;> simp

lemma parentOf_mem_left {g : List AgentNode} {z u : String}
    (h : parentOf g z = some u) : z ∈ nodeNames g := by
  obtain ⟨a, hf, _⟩ := parentOf_eq_some_iff.mp h
  have hm := List.mem_of_find?_eq_some hf
  have hp := List.find?_some hf
  simp only [beq_iff_eq] at hp
  exact hp ▸ List.mem_map_of_mem (·.name) hm

lemma parentOf_mem_right {g : List AgentNode} {z u : String}
    (hC : ClosedB g = true) (h : parentOf g z = some u) : u ∈ nodeNames g := by
  obtain ⟨a, hf, hi⟩ := parentOf_eq_some_iff.mp h
  have hm := List.mem_of_find?_eq_some hf
  have hall := (List.all_eq_true.mp hC) a hm
  rw [hi] at hall
  simpa using hall

lemma walk_mem {g : List AgentNode} {x y : String} {k : Nat}
    (hC : ClosedB g = true) (hk : 1 ≤ k) (h : walk g x k = some y) :
    y ∈ nodeNames g := by
  obtain ⟨j, rfl⟩ := Nat.exists_eq_add_of_le hk
  rw [Nat.add_comm, walk_succ] at h
  cases hmid : walk g x j with
  | none => rw [hmid] at h; cases h
  | some z =>
    rw [hmid] at h
    simp only [Option.some_bind] at h
    exact parentOf_mem_right hC h

lemma walk_cycle_mul {g : List AgentNode} {y : String} {d : Nat}
    (h : walk g y d = some y) : ∀ t, walk g y (t * d) = some y := by
  intro t
  induction t with
  | zero => simp [walk]
  | succ t ih =>
    rw [Nat.succ_mul, walk_add, ih]
    simpa using h

lemma cycle_aux {g : List AgentNode} {x y : String} {i j : Nat}
    (h : walk g x g.length = some y) (hlt : i < j) (hj : j ≤ g.length)
    (hfe : (walk g x i).getD "" = (walk g x j).getD "") :
    ∃ d, 0 < d ∧ d ≤ g.length ∧ walk g y d = some y := by
  set n := g.length with hn
  have hsn : (walk g x n).isSome := by rw [h]; rfl
  have hsi : (walk g x i).isSome := walk_isSome_le (by omega) hsn
  have hsj : (walk g x j).isSome := walk_isSome_le hj hsn
  obtain ⟨zi, hzi⟩ := Option.isSome_iff_exists.mp hsi
  obtain ⟨zj, hzj⟩ := Option.isSome_iff_exists.mp hsj
  have hij : walk g x i = walk g x j := by
    rw [hzi, hzj] at hfe ⊢
    simpa using hfe
  refine ⟨j - i, by omega, by omega, ?_⟩
  have hper : walk g x (n + (j - i)) = walk g x n := by
    have h1 : n + (j - i) = j + (n - i) := by omega
    have h2 : n = i + (n - i) := by omega
    rw [h1, walk_add, ← hij, ← walk_add, ← h2]
  have hyd : walk g x (n + (j - i)) = walk g y (j - i) := by
    rw [walk_add, h]
    rfl
  rw [hyd, h] at hper
  exact hper

lemma cycle_of_walk {g : List AgentNode} {x y : String}
    (hC : ClosedB g = true) (hx : x ∈ nodeNames g)
    (h : walk g x g.length = some y) :
    ∃ d, 0 < d ∧ d ≤ g.length ∧ walk g y d = some y := by
  set n := g.length with hn
  have hlen : (nodeNames g).length = n := by simp [nodeNames, hn]
  have hsome : ∀ k ≤ n, ∃ z, walk g x k = some z ∧ z ∈ nodeNames g := by
    intro k hk
    have hks : (walk g x k).isSome := walk_isSome_le hk (by rw [h]; rfl)
    obtain ⟨z, hz⟩ := Option.isSome_iff_exists.mp hks
    refine ⟨z, hz, ?_⟩
    rcases Nat.eq_zero_or_pos k with h0 | hpos
    · subst h0
      cases hz
      exact hx
    · exact walk_mem hC hpos hz
  have hcard : (nodeNames g).toFinset.card < (Finset.range (n + 1)).card := by
    have := List.toFinset_card_le (nodeNames g)
    rw [Finset.card_range]
    omega
  have hmaps : ∀ k ∈ Finset.range (n + 1),
      (walk g x k).getD "" ∈ (nodeNames g).toFinset := by
    intro k hk
    rw [Finset.mem_range] at hk
    obtain ⟨z, hz, hzm⟩ := hsome k (by omega)
    rw [hz]
    simpa using hzm
  obtain ⟨i, hi, j, hj, hij, hfe⟩ :=
    Finset.exists_ne_map_eq_of_card_lt_of_maps_to hcard hmaps
  rw [Finset.mem_range] at hi hj
  rcases Nat.lt_or_ge i j with hlt | hge
  · exact cycle_aux h hlt (by omega) hfe
  · have hlt : j < i := by omega
    exact cycle_aux h hlt (by omega) hfe.symm

lemma mem_names_iff {g : List AgentNode} {x : String} :
    x ∈ nodeNames g ↔ ∃ a ∈ g, a.name = x := by
  simp [nodeNames]

lemma getD_map_range {α : Type} {f : Nat → α} {m i : Nat} (hi : i < m) (d : α) :
    ((List.range m).map f).getD i d = f i := by
  rw [List.getD_eq_getElem?_getD, List.getElem?_map, List.getElem?_range hi]
  rfl

lemma hasCycle_of_cycle {g : List AgentNode} {y : String} {d : Nat}
    (hd : 0 < d) (h : walk g y d = some y) : hasCycle g = true := by
  have h1 : (walk g y 1).isSome := walk_isSome_le hd (by rw [h]; rfl)
  obtain ⟨u, hu⟩ := Option.isSome_iff_exists.mp h1
  rw [walk_one] at hu
  have hy : y ∈ nodeNames g := parentOf_mem_left hu
  have hbig : walk g y (g.length * d) = some y := walk_cycle_mul h g.length
  have hlen : (walk g y g.length).isSome :=
    walk_isSome_le (Nat.le_mul_of_pos_right _ hd) (by rw [hbig]; rfl)
  obtain ⟨a, ha, han⟩ := mem_names_iff.mp hy
  exact List.any_eq_true.mpr ⟨a, ha, by rw [han]; exact hlen⟩

lemma walk_of_isCycle {g : List AgentNode} {p : List String}
    (h : isCycle g p = true) :
    ∀ k, walk g (p.getD 0 "") k = some (p.getD (k % p.length) "") := by
  have hne : p.length ≠ 0 := by
    rcases p with _ | ⟨a, q⟩
    · simp [isCycle] at h
    · simp
  have hall := (List.all_eq_true.mp ((Bool.and_eq_true _ _).mp h).2)
  intro k
  induction k with
  | zero =>
    rw [Nat.zero_mod]
    rfl
  | succ k ih =>
    rw [walk_succ, ih]
    simp only [Option.some_bind]
    have hk : k % p.length < p.length := Nat.mod_lt _ (Nat.pos_of_ne_zero hne)
    have := hall (k % p.length) (List.mem_range.mpr hk)
    rw [beq_iff_eq] at this
    rw [this, Nat.mod_add_mod]

lemma hasCycle_of_isCycle {g : List AgentNode} {p : List String}
    (h : isCycle g p = true) : hasCycle g = true := by
  have hne : 0 < p.length := by
    rcases p with _ | ⟨a, q⟩
    · simp [isCycle] at h
    · simp
  have hw := walk_of_isCycle h p.length
  rw [Nat.mod_self] at hw
  exact hasCycle_of_cycle hne hw

lemma findCycle_isCycle {g : List AgentNode}
    (hC : ClosedB g = true) (h : hasCycle g = true) :
    ∃ p, findCycle g = some p ∧ isCycle g p = true := by
  have hfs : (g.find? (fun a => (walk g a.name g.length).isSome)).isSome := by
    rw [List.find?_isSome]
    obtain ⟨a, ha, hp⟩ := List.any_eq_true.mp h
    exact ⟨a, ha, hp⟩
  obtain ⟨a₀, hfind⟩ := Option.isSome_iff_exists.mp hfs
  have hp₀ := List.find?_some hfind
  simp only [] at hp₀
  obtain ⟨y, hw⟩ := Option.isSome_iff_exists.mp hp₀
  have hmem : a₀.name ∈ nodeNames g :=
    mem_names_iff.mpr ⟨a₀, List.mem_of_find?_eq_some hfind, rfl⟩
  obtain ⟨d, hd0, hdn, hyd⟩ := cycle_of_walk hC hmem hw
  -- the inner search for the minimal return time succeeds
  have hinner : ((List.range (g.length + 1)).find?
      (fun m => decide (0 < m) && (walk g y m == some y))).isSome := by
    rw [List.find?_isSome]
    refine ⟨d, List.mem_range.mpr (by omega), ?_⟩
    simp [hd0, hyd]
  obtain ⟨m₀, hm₀⟩ := Option.isSome_iff_exists.mp hinner
  have hm₀p := List.find?_some hm₀
  rw [Bool.and_eq_true, decide_eq_true_eq, beq_iff_eq] at hm₀p
  obtain ⟨hm₀pos, hm₀walk⟩ := hm₀p
  refine ⟨(List.range m₀).map (fun k => (walk g y k).getD y), ?_, ?_⟩
  · unfold findCycle
    rw [hfind]
    simp only [hw, Option.getD_some]
    rw [hm₀]
  · have hwk : ∀ k ≤ m₀, ∃ z, walk g y k = some z := by
      intro k hk
      exact Option.isSome_iff_exists.mp
        (walk_isSome_le hk (by rw [hm₀walk]; rfl))
    have hlen : ((List.range m₀).map (fun k => (walk g y k).getD y)).length = m₀ := by
      simp
    unfold isCycle
    rw [Bool.and_eq_true]
    constructor
    · rcases hm : (List.range m₀).map (fun k => (walk g y k).getD y) with _ | ⟨b, q⟩
      · exfalso
        have := congrArg List.length hm
        simp at this
        omega
      · simp
    · rw [List.all_eq_true]
      intro i hi
      rw [hlen] at hi
      rw [List.mem_range] at hi
      rw [hlen]
      obtain ⟨zi, hzi⟩ := hwk i (by omega)
      have hgi : ((List.range m₀).map (fun k => (walk g y k).getD y)).getD i "" = zi := by
        rw [getD_map_range hi, hzi]
        rfl
      have hpar : parentOf g zi = walk g y (i + 1) := by
        rw [walk_succ, hzi]
        rfl
      rcases Nat.lt_or_ge (i + 1) m₀ with hi1 | hi1
      · obtain ⟨zi1, hzi1⟩ := hwk (i + 1) (by omega)
        have hgi1 : ((List.range m₀).map (fun k => (walk g y k).getD y)).getD
            ((i + 1) % m₀) "" = zi1 := by
          rw [Nat.mod_eq_of_lt hi1, getD_map_range hi1, hzi1]
          rfl
        rw [hgi, hgi1, beq_iff_eq, hpar, hzi1]
      · have hieq : i + 1 = m₀ := by omega
        have hg0 : ((List.range m₀).map (fun k => (walk g y k).getD y)).getD
            ((i + 1) % m₀) "" = y := by
          rw [hieq, Nat.mod_self, getD_map_range (by omega)]
          rfl
        rw [hgi, hg0, beq_iff_eq, hpar, hieq, hm₀walk]

lemma isCycle_false_of_hasCycle_false {g : List AgentNode}
    (h : hasCycle g = false) : ∀ p, isCycle g p = false := by
  intro p
  by_contra hcontra
  rw [Bool.not_eq_false] at hcontra
  rw [hasCycle_of_isCycle hcontra] at h
  cases h

lemma hasCycle_false_of_no_cycle {g : List AgentNode}
    (hC : ClosedB g = true) (h : ∀ p, isCycle g p = false) :
    hasCycle g = false := by
  by_contra hcontra
  rw [Bool.not_eq_false] at hcontra
  obtain ⟨p, _, hcyc⟩ := findCycle_isCycle hC hcontra
  rw [h p] at hcyc
  cases hcyc

/-! Lemmas about the generation-based topological order. -/

lemma closed_input_mem {g : List AgentNode} {a : AgentNode} {u : String}
    (hC : ClosedB g = true) (ha : a ∈ g) (hi : inputOf a = some u) :
    u ∈ nodeNames g := by
  have h := List.all_eq_true.mp hC a ha
  rw [hi] at h
  simpa using h

lemma find?_name_nodup {g : List AgentNode} {a : AgentNode}
    (hN : (nodeNames g).Nodup) (ha : a ∈ g) :
    g.find? (fun b => b.name == a.name) = some a := by
  cases hf : g.find? (fun b => b.name == a.name) with
  | none =>
    exfalso
    have hnone := List.find?_eq_none.mp hf a ha
    simp at hnone
  | some b =>
    have hm := List.mem_of_find?_eq_some hf
    have hp := List.find?_some hf
    rw [beq_iff_eq] at hp
    have := List.inj_on_of_nodup_map (hN : (g.map (·.name)).Nodup) hm ha hp
    rw [this]

lemma parentOf_name {g : List AgentNode} {a : AgentNode}
    (hN : (nodeNames g).Nodup) (ha : a ∈ g) :
    parentOf g a.name = inputOf a := by
  unfold parentOf
  rw [find?_name_nodup hN ha]

lemma mem_children_iff {g : List AgentNode} {u x : String}
    (hN : (nodeNames g).Nodup) :
    x ∈ childrenOf g u ↔ x ∈ nodeNames g ∧ parentOf g x = some u := by
  unfold childrenOf
  constructor
  · intro hx
    obtain ⟨a, ham, rfl⟩ := List.mem_map.mp hx
    have hfm := List.mem_filter.mp ham
    refine ⟨List.mem_map_of_mem _ hfm.1, ?_⟩
    rw [parentOf_name hN hfm.1]
    exact eq_of_beq hfm.2
  · intro ⟨hx, hp⟩
    obtain ⟨a, ha, rfl⟩ := mem_names_iff.mp hx
    rw [parentOf_name hN ha] at hp
    exact List.mem_map_of_mem _ (List.mem_filter.mpr ⟨ha, by simp [hp]⟩)

lemma mem_gens_zero {g : List AgentNode} {x : String}
    (hN : (nodeNames g).Nodup) :
    x ∈ gens g 0 ↔ x ∈ nodeNames g ∧ parentOf g x = none := by
  show x ∈ (g.filter (fun a => inputOf a == none)).map (·.name) ↔ _
  constructor
  · intro hx
    obtain ⟨a, ham, rfl⟩ := List.mem_map.mp hx
    have hfm := List.mem_filter.mp ham
    refine ⟨List.mem_map_of_mem _ hfm.1, ?_⟩
    rw [parentOf_name hN hfm.1]
    exact eq_of_beq hfm.2
  · intro ⟨hx, hp⟩
    obtain ⟨a, ha, rfl⟩ := mem_names_iff.mp hx
    rw [parentOf_name hN ha] at hp
    exact List.mem_map_of_mem _ (List.mem_filter.mpr ⟨ha, by simp [hp]⟩)

lemma gens_char {g : List AgentNode}
    (hN : (nodeNames g).Nodup) (hC : ClosedB g = true) :
    ∀ k x, x ∈ gens g k ↔
      x ∈ nodeNames g ∧ (walk g x k).isSome ∧ walk g x (k + 1) = none := by
  intro k
  induction k with
  | zero =>
    intro x
    rw [mem_gens_zero hN]
    simp [walk_one, walk]
  | succ k ih =>
    intro x
    show x ∈ (gens g k).flatMap (childrenOf g) ↔ _
    rw [List.mem_flatMap]
    constructor
    · intro ⟨u, hu, hxc⟩
      obtain ⟨hxn, hpar⟩ := (mem_children_iff hN).mp hxc
      obtain ⟨hun, huw, huw1⟩ := (ih u).mp hu
      refine ⟨hxn, ?_, ?_⟩
      · rw [walk_succ_front, hpar]
        simpa using huw
      · rw [walk_succ_front, hpar]
        simpa using huw1
    · intro ⟨hxn, hws, hwn⟩
      rw [walk_succ_front] at hws
      cases hpar : parentOf g x with
      | none => rw [hpar] at hws; simp at hws
      | some u =>
        rw [hpar] at hws
        simp only [Option.some_bind] at hws
        rw [walk_succ_front, hpar] at hwn
        simp only [Option.some_bind] at hwn
        have hun : u ∈ nodeNames g := parentOf_mem_right hC hpar
        exact ⟨u, (ih u).mpr ⟨hun, hws, hwn⟩, (mem_children_iff hN).mpr ⟨hxn, hpar⟩⟩

lemma gens_unique {g : List AgentNode} {x : String} {k j : Nat}
    (hN : (nodeNames g).Nodup) (hC : ClosedB g = true)
    (hk : x ∈ gens g k) (hj : x ∈ gens g j) : k = j := by
  obtain ⟨-, hks, hkn⟩ := (gens_char hN hC k x).mp hk
  obtain ⟨-, hjs, hjn⟩ := (gens_char hN hC j x).mp hj
  by_contra hne
  rcases Nat.lt_or_ge k j with hlt | hge
  · rw [walk_none_mono hkn (by omega)] at hjs; cases hjs
  · have hlt : j < k := by omega
    rw [walk_none_mono hjn (by omega)] at hks; cases hks

lemma gens_nodup {g : List AgentNode}
    (hN : (nodeNames g).Nodup) (_hC : ClosedB g = true) :
    ∀ k, (gens g k).Nodup := by
  have hnames : (g.map (·.name)).Nodup := hN
  intro k
  induction k with
  | zero =>
    exact ((List.filter_sublist g).map (·.name)).nodup hnames
  | succ k ih =>
    show ((gens g k).flatMap (childrenOf g)).Nodup
    rw [List.nodup_flatMap]
    refine ⟨fun u _ => ?_, ?_⟩
    · show ((g.filter (fun a => inputOf a == some u)).map (·.name)).Nodup
      exact ((List.filter_sublist g).map (·.name)).nodup hnames
    refine ih.imp ?_
    intro u v huv x hxu hxv
    have h1 := ((mem_children_iff hN).mp hxu).2
    have h2 := ((mem_children_iff hN).mp hxv).2
    rw [h1] at h2
    exact huv (Option.some.inj h2)

lemma gens_total {g : List AgentNode}
    (hN : (nodeNames g).Nodup) (hC : ClosedB g = true)
    (hA : hasCycle g = false) :
    ∀ x ∈ nodeNames g, ∃ k, k < g.length ∧ x ∈ gens g k := by
  intro x hx
  have hnone : walk g x g.length = none := by
    obtain ⟨a, ha, rfl⟩ := mem_names_iff.mp hx
    rw [← Option.not_isSome_iff_eq_none]
    intro hs
    have hany : hasCycle g = true := List.any_eq_true.mpr ⟨a, ha, hs⟩
    rw [hany] at hA
    cases hA
  have hP : ∃ k, walk g x k = none := ⟨g.length, hnone⟩
  classical
  let k₀ := Nat.find hP
  have hk₀ : walk g x k₀ = none := Nat.find_spec hP
  have hk₀le : k₀ ≤ g.length := Nat.find_min' hP hnone
  have hk₀pos : 0 < k₀ := by
    rcases Nat.eq_zero_or_pos k₀ with h0 | hpos
    · exfalso
      have := hk₀
      rw [h0] at this
      cases this
    · exact hpos
  have hprev : (walk g x (k₀ - 1)).isSome := by
    have := Nat.find_min hP (m := k₀ - 1) (by omega)
    rw [Option.isSome_iff_ne_none]
    exact this
  refine ⟨k₀ - 1, by omega, ?_⟩
  rw [gens_char hN hC]
  refine ⟨hx, hprev, ?_⟩
  rw [show k₀ - 1 + 1 = k₀ by omega]
  exact hk₀

lemma mem_execOrder {g : List AgentNode} {x : String}
    (hN : (nodeNames g).Nodup) (hC : ClosedB g = true)
    (hA : hasCycle g = false) :
    x ∈ execOrderList g ↔ x ∈ nodeNames g := by
  unfold execOrderList
  rw [List.mem_flatMap]
  constructor
  · intro ⟨k, _, hx⟩
    exact ((gens_char hN hC k x).mp hx).1
  · intro hx
    obtain ⟨k, hk, hxk⟩ := gens_total hN hC hA x hx
    exact ⟨k, List.mem_range.mpr hk, hxk⟩

lemma execOrder_nodup {g : List AgentNode}
    (hN : (nodeNames g).Nodup) (hC : ClosedB g = true) :
    (execOrderList g).Nodup := by
  unfold execOrderList
  rw [List.nodup_flatMap]
  refine ⟨fun k _ => gens_nodup hN hC k, ?_⟩
  refine (List.nodup_range _).imp ?_
  intro k j hkj x hxk hxj
  exact hkj (gens_unique hN hC hxk hxj)

lemma execOrder_perm {g : List AgentNode}
    (hN : (nodeNames g).Nodup) (hC : ClosedB g = true)
    (hA : hasCycle g = false) :
    (execOrderList g).Perm (nodeNames g) := by
  rw [List.perm_ext_iff_of_nodup (execOrder_nodup hN hC) hN]
  intro x
  exact mem_execOrder hN hC hA

lemma execOrder_split {g : List AgentNode} {m : Nat} (hm : m ≤ g.length) :
    ∃ l₂, execOrderList g = (List.range m).flatMap (gens g) ++ l₂ := by
  unfold execOrderList
  induction g.length, hm using Nat.le_induction with
  | base => exact ⟨[], by simp⟩
  | succ n hmn ih =>
    obtain ⟨l₂, hl₂⟩ := ih
    refine ⟨l₂ ++ gens g n, ?_⟩
    rw [List.range_succ, List.flatMap_append, hl₂]
    simp

lemma indexOf_lt_of_prefix {α : Type} [DecidableEq α] {l₁ l₂ : List α}
    {u x : α} (hu : u ∈ l₁) (hx : x ∉ l₁) :
    List.indexOf u (l₁ ++ l₂) < List.indexOf x (l₁ ++ l₂) := by
  rw [List.indexOf_append_of_mem hu, List.indexOf_append_of_not_mem hx]
  have := List.indexOf_lt_length.mpr hu
  omega

lemma execOrder_edge {g : List AgentNode} {a : AgentNode} {u : String}
    (hN : (nodeNames g).Nodup) (hC : ClosedB g = true)
    (hA : hasCycle g = false) (ha : a ∈ g) (hi : inputOf a = some u) :
    List.indexOf u (execOrderList g) < List.indexOf a.name (execOrderList g) := by
  have hun : u ∈ nodeNames g := closed_input_mem hC ha hi
  obtain ⟨k, hk, huk⟩ := gens_total hN hC hA u hun
  have hxn : a.name ∈ nodeNames g := List.mem_map_of_mem _ ha
  have hpar : parentOf g a.name = some u := by
    rw [parentOf_name hN ha]
    exact hi
  obtain ⟨-, hus, hun1⟩ := (gens_char hN hC k u).mp huk
  have hxk1 : a.name ∈ gens g (k + 1) := by
    rw [gens_char hN hC]
    refine ⟨hxn, ?_, ?_⟩
    · rw [walk_succ_front, hpar]
      simpa using hus
    · rw [walk_succ_front, hpar]
      simpa using hun1
  have hk1 : k + 1 < g.length := by
    obtain ⟨j, hj, hxj⟩ := gens_total hN hC hA a.name hxn
    have := gens_unique hN hC hxj hxk1
    omega
  obtain ⟨l₂, hsplit⟩ := execOrder_split (g := g) (m := k + 1) (by omega)
  rw [hsplit]
  apply indexOf_lt_of_prefix
  · exact List.mem_flatMap.mpr ⟨k, List.mem_range.mpr (by omega), huk⟩
  · intro hmem
    obtain ⟨j, hj, hxj⟩ := List.mem_flatMap.mp hmem
    rw [List.mem_range] at hj
    have := gens_unique hN hC hxj hxk1
    omega

/-! Claim theorems for the graph component. -/

/-- C10: for every graph containing a cycle, validate raises GraphError
whose report is a concrete cycle path of that graph. -/
theorem c10_validate_reports_cycle (g : List AgentNode)
    (hC : ClosedB g = true) (hcyc : ∃ p, isCycle g p = true) :
    ∃ q, validate g = .error (.circular q) ∧ isCycle g q = true := by
  obtain ⟨p, hp⟩ := hcyc
  obtain ⟨q, hfq, hq⟩ := findCycle_isCycle hC (hasCycle_of_isCycle hp)
  refine ⟨q, ?_, hq⟩
  unfold validate
  rw [hfq]

/-- Witness for C10 on the two-node cycle A -> B -> A. -/
theorem c10_validate_reports_cycle_witness :
    ClosedB [⟨"A", some "B", none, false, none⟩,
             ⟨"B", some "A", none, false, none⟩] = true ∧
    isCycle [⟨"A", some "B", none, false, none⟩,
             ⟨"B", some "A", none, false, none⟩] ["A", "B"] = true ∧
    ∃ q, validate [⟨"A", some "B", none, false, none⟩,
                   ⟨"B", some "A", none, false, none⟩] = .error (.circular q) ∧
      isCycle [⟨"A", some "B", none, false, none⟩,
               ⟨"B", some "A", none, false, none⟩] q = true :=
  ⟨by decide, by decide,
   c10_validate_reports_cycle _ (by decide) ⟨["A", "B"], by decide⟩⟩

/-- C3 counterexample: on the acyclic graph with agents declared A, B, C, D
and edges B -> C and A -> D, get_execution_order returns A, B, D, C,
which violates the claimed declaration-order tie-break: after A and B,
both C and D are ready and C is declared first, yet D is emitted. -/
theorem c3_tie_break_counterexample :
    getExecutionOrder
      [⟨"A", none, none, false, none⟩, ⟨"B", none, none, false, none⟩,
       ⟨"C", some "B", none, false, none⟩, ⟨"D", some "A", none, false, none⟩] =
      .ok ["A", "B", "D", "C"] ∧
    declOrderTieBreak
      [⟨"A", none, none, false, none⟩, ⟨"B", none, none, false, none⟩,
       ⟨"C", some "B", none, false, none⟩, ⟨"D", some "A", none, false, none⟩]
      ["A", "B", "D", "C"] = false :=
  ⟨rfl, by decide⟩

/-- C3 (amended): for every acyclic dependency graph, get_execution_order
returns a permutation of the weave's agents in which the source of
every edge precedes its target; ties are not broken by declaration
order (see the counterexample). -/
theorem c3_execution_order (g : List AgentNode)
    (hN : (nodeNames g).Nodup) (hC : ClosedB g = true)
    (hA : ∀ p, isCycle g p = false) :
    ∃ order, getExecutionOrder g = .ok order ∧ order.Perm (nodeNames g) ∧
      ∀ a ∈ g, ∀ u, inputOf a = some u →
        List.indexOf u order < List.indexOf a.name order := by
  have hhc := hasCycle_false_of_no_cycle hC hA
  refine ⟨execOrderList g, ?_, execOrder_perm hN hC hhc, ?_⟩
  · simp [getExecutionOrder, hhc]
  · intro a ha u hu
    exact execOrder_edge hN hC hhc ha hu

/-- Witness for C3 on the counterexample graph, whose edge-respecting
permutation property does hold. -/
theorem c3_execution_order_witness :
    (nodeNames
      [⟨"A", none, none, false, none⟩, ⟨"B", none, none, false, none⟩,
       ⟨"C", some "B", none, false, none⟩, ⟨"D", some "A", none, false, none⟩]).Nodup ∧
    ∃ order, getExecutionOrder
        [⟨"A", none, none, false, none⟩, ⟨"B", none, none, false, none⟩,
         ⟨"C", some "B", none, false, none⟩, ⟨"D", some "A", none, false, none⟩] =
        .ok order ∧
      order.Perm (nodeNames
        [⟨"A", none, none, false, none⟩, ⟨"B", none, none, false, none⟩,
         ⟨"C", some "B", none, false, none⟩, ⟨"D", some "A", none, false, none⟩]) ∧
      ∀ a ∈ [⟨"A", none, none, false, none⟩, ⟨"B", none, none, false, none⟩,
             ⟨"C", some "B", none, false, none⟩, ⟨"D", some "A", none, false, none⟩],
        ∀ u, inputOf a = some u →
          List.indexOf u order < List.indexOf a.name order :=
  ⟨by decide,
   c3_execution_order _ (by decide) (by decide)
     (isCycle_false_of_hasCycle_false (by decide))⟩

/-! Claim theorems for the lock component. -/

/-- C9: a second create_lock without an intervening release raises while
the first lock's owner is alive, and once the owning process is dead,
is_locked reports false and removes the stale lock file. -/
theorem c9_lock_exclusion_and_selfhealing :
    (∀ (fs : LockFS) (alive : Nat → Bool) (w r : String) (p : Nat)
       (l : LockFileM) (fs' : LockFS) (w' r' : String) (p' : Nat),
      create_lock fs alive w r p = .ok (l, fs') → alive p = true →
      create_lock fs' alive w' r' p' =
        .error "Weave is already locked. Remove the lock file or wait for execution to complete.") ∧
    (∀ (l : LockFileM) (alive : Nat → Bool), alive l.pid = false →
      is_locked (some l) alive = (false, none)) := by
  constructor
  · intro fs alive w r p l fs' w' r' p' hok halive
    unfold create_lock at hok
    cases hil : is_locked fs alive with
    | mk locked fs₁ =>
      rw [hil] at hok
      cases locked with
      | true => simp at hok
      | false =>
        simp only [Bool.false_eq_true, if_false] at hok
        have hfs' : fs' = some ⟨w, r, p⟩ := by
          cases hok
          rfl
        rw [hfs']
        unfold create_lock
        simp [is_locked, halive]
  · intro l alive h
    simp [is_locked, h]

/-- Witness for C9 with a concrete liveness oracle in which only pid 7 is
alive: locking twice from pid 7 fails the second time, and a lock owned
by the dead pid 3 self-heals. -/
theorem c9_lock_exclusion_and_selfhealing_witness :
    create_lock none (fun p => p == 7) "w" "r1" 7 =
      .ok (⟨"w", "r1", 7⟩, some ⟨"w", "r1", 7⟩) ∧
    create_lock (some ⟨"w", "r1", 7⟩) (fun p => p == 7) "w" "r2" 7 =
      .error "Weave is already locked. Remove the lock file or wait for execution to complete." ∧
    is_locked (some ⟨"w", "r0", 3⟩) (fun p => p == 7) = (false, none) :=
  ⟨rfl,
   c9_lock_exclusion_and_selfhealing.1 none (fun p => p == 7) "w" "r1" 7
     ⟨"w", "r1", 7⟩ (some ⟨"w", "r1", 7⟩) "w" "r2" 7 rfl (by decide),
   c9_lock_exclusion_and_selfhealing.2 ⟨"w", "r0", 3⟩ (fun p => p == 7) (by decide)⟩

/-! Lemmas and claim theorems for the memory subsystem. -/

lemma filter_role_partition (msgs : List Msg) :
    (msgs.filter (fun m => m.role == "system")).length +
      (msgs.filter (fun m => m.role != "system")).length = msgs.length := by
  induction msgs with
  | nil => rfl
  | cons m rest ih =>
    by_cases h : m.role = "system"
    · simp [List.filter_cons, h]
      omega
    · simp [List.filter_cons, h]
      omega

/-- C7 counterexample: with auto-compact enabled, no prior compaction, and
an estimated token count above context_window, apply_strategy still
does not compact when fewer than 5 messages exist (here 4 messages of
12 characters against a context window of 10 tokens): the code's
len(messages) < 5 guard is absent from the claim. -/
theorem c7_compaction_counterexample :
    (⟨"auto_compact", 100, 10, none, none⟩ : ShortTermMemory).contextWindow <
      count_message_tokens (List.replicate 4 ⟨"user", "aaaaaaaaaaaa"⟩) ∧
    apply_strategy (⟨"auto_compact", 100, 10, none, none⟩ : ShortTermMemory)
      (List.replicate 4 ⟨"user", "aaaaaaaaaaaa"⟩) true =
      (⟨"auto_compact", 100, 10, none, none⟩,
       List.replicate 4 ⟨"user", "aaaaaaaaaaaa"⟩) := by
  constructor
  · decide
  · rfl

/-- C7 (amended): on an instance with no prior compaction, the compaction
trigger fires exactly when at least 5 messages exist and the token
estimate exceeds context_window or the count exceeds a nonzero
summarize_after; one compaction yields at most #system + 1 + 10
messages; it is a no-op when at most 10 non-system messages exist; an
instance holding a summary never triggers again, and a real compaction
(more than 10 non-system messages) always installs the summary. -/
theorem c7_compaction :
    (∀ (stm : ShortTermMemory) (msgs : List Msg), stm.summaryMessage = none →
      (should_compact stm msgs = true ↔
        5 ≤ msgs.length ∧
          (stm.contextWindow < count_message_tokens msgs ∨
            ∃ k, stm.summarizeAfter = some k ∧ k ≠ 0 ∧ k < msgs.length))) ∧
    (∀ (stm : ShortTermMemory) (msgs : List Msg),
      ((compact_messages stm msgs).2).length ≤
        (msgs.filter (fun m => m.role == "system")).length + 1 + 10) ∧
    (∀ (stm : ShortTermMemory) (msgs : List Msg),
      (msgs.filter (fun m => m.role != "system")).length ≤ 10 →
      compact_messages stm msgs = (stm.summaryMessage, msgs)) ∧
    (∀ (stm : ShortTermMemory) (msgs : List Msg),
      stm.summaryMessage.isSome = true → should_compact stm msgs = false) ∧
    (∀ (stm : ShortTermMemory) (msgs : List Msg),
      10 < (msgs.filter (fun m => m.role != "system")).length →
      ((compact_messages stm msgs).1).isSome = true) := by
  refine ⟨?_, ?_, ?_, ?_, ?_⟩
  · intro stm msgs h
    unfold should_compact
    rw [h]
    simp only [Option.isSome_none, Bool.false_or]
    split_ifs with h5 ht
    · rw [decide_eq_true_eq] at h5
      constructor
      · intro hf
        cases hf
      · rintro ⟨h5', -⟩
        omega
    · rw [decide_eq_true_eq] at h5
      constructor
      · intro _
        exact ⟨by omega, Or.inl ht⟩
      · intro _
        rfl
    · rw [decide_eq_true_eq] at h5
      cases hsa : stm.summarizeAfter with
      | none =>
        simp only [Bool.false_eq_true, false_iff]
        rintro ⟨-, hor⟩
        rcases hor with hor | ⟨k, hk, -, -⟩
        · omega
        · cases hk
      | some k =>
        simp only [Bool.and_eq_true, decide_eq_true_eq]
        constructor
        · rintro ⟨hk0, hklt⟩
          exact ⟨by omega, Or.inr ⟨k, rfl, hk0, hklt⟩⟩
        · rintro ⟨-, hor⟩
          rcases hor with hor | ⟨k', hk', hk'0, hk'lt⟩
          · omega
          · cases Option.some.inj hk'
            exact ⟨hk'0, hk'lt⟩
  · intro stm msgs
    have hpart := filter_role_partition msgs
    unfold compact_messages
    split_ifs with h10
    · show msgs.length ≤ (msgs.filter (fun m => m.role == "system")).length + 1 + 10
      omega
    · simp only
      by_cases hold : (List.take ((List.filter (fun m => m.role != "system") msgs).length - 10)
          (List.filter (fun m => m.role != "system") msgs)).isEmpty = true
      · rw [if_pos hold]
        rw [List.isEmpty_iff_length_eq_zero, List.length_take] at hold
        show msgs.length ≤ (msgs.filter (fun m => m.role == "system")).length + 1 + 10
        omega
      · rw [if_neg hold]
        simp only [List.length_append, List.length_cons, List.length_nil,
          List.length_drop]
        omega
  · intro stm msgs hconv
    unfold compact_messages
    split_ifs with h10
    · rfl
    · simp only
      have htake : List.take ((List.filter (fun m => m.role != "system") msgs).length - 10)
          (List.filter (fun m => m.role != "system") msgs) = [] := by
        have h0 : (List.filter (fun m => m.role != "system") msgs).length - 10 = 0 := by
          omega
        rw [h0]
        rfl
      rw [htake]
      rfl
  · intro stm msgs h
    unfold should_compact
    rw [h]
    simp
  · intro stm msgs hconv
    have hlen : 10 < msgs.length := by
      have := List.length_filter_le (fun m => m.role != "system") msgs
      omega
    unfold compact_messages
    rw [if_neg (by omega : ¬msgs.length ≤ 10)]
    simp only
    have htake : ¬(List.take ((List.filter (fun m => m.role != "system") msgs).length - 10)
        (List.filter (fun m => m.role != "system") msgs)).isEmpty = true := by
      rw [List.isEmpty_iff_length_eq_zero, List.length_take]
      omega
    rw [if_neg htake]
    rfl

/-- Witness for C7, exercising each conjunct on concrete instances built
around 25 twelve-character user messages against a context window of
10 estimated tokens. -/
theorem c7_compaction_witness :
    (should_compact (⟨"auto_compact", 100, 10, none, none⟩ : ShortTermMemory)
        (List.replicate 25 ⟨"user", "aaaaaaaaaaaa"⟩) = true ↔
      5 ≤ (List.replicate 25 (⟨"user", "aaaaaaaaaaaa"⟩ : Msg)).length ∧
        ((⟨"auto_compact", 100, 10, none, none⟩ : ShortTermMemory).contextWindow <
            count_message_tokens (List.replicate 25 ⟨"user", "aaaaaaaaaaaa"⟩) ∨
          ∃ k, (⟨"auto_compact", 100, 10, none, none⟩ : ShortTermMemory).summarizeAfter =
              some k ∧ k ≠ 0 ∧
              k < (List.replicate 25 (⟨"user", "aaaaaaaaaaaa"⟩ : Msg)).length)) ∧
    ((compact_messages (⟨"auto_compact", 100, 10, none, none⟩ : ShortTermMemory)
        (List.replicate 25 ⟨"user", "aaaaaaaaaaaa"⟩)).2).length ≤
      ((List.replicate 25 (⟨"user", "aaaaaaaaaaaa"⟩ : Msg)).filter
        (fun m => m.role == "system")).length + 1 + 10 ∧
    compact_messages (⟨"auto_compact", 100, 10, none, none⟩ : ShortTermMemory)
        [⟨"system", "s"⟩, ⟨"user", "u"⟩] =
      ((⟨"auto_compact", 100, 10, none, none⟩ : ShortTermMemory).summaryMessage,
       [⟨"system", "s"⟩, ⟨"user", "u"⟩]) ∧
    should_compact (⟨"auto_compact", 100, 10, none, some ⟨"system", "done"⟩⟩ :
        ShortTermMemory) (List.replicate 25 ⟨"user", "aaaaaaaaaaaa"⟩) = false ∧
    ((compact_messages (⟨"auto_compact", 100, 10, none, none⟩ : ShortTermMemory)
        (List.replicate 25 ⟨"user", "aaaaaaaaaaaa"⟩)).1).isSome = true :=
  ⟨c7_compaction.1 _ _ rfl,
   c7_compaction.2.1 _ _,
   c7_compaction.2.2.1 _ _ (by decide),
   c7_compaction.2.2.2.1 _ _ (by decide),
   c7_compaction.2.2.2.2 _ _ (by decide)⟩

/-! Lemmas about single-agent execution and the retry loop. -/

lemma execute_agent_ok {a : AgentNode} {outputs : List (String × AgentOutputM)}
    {runner : Runner} {att : Nat} {c : String}
    (h : runner a.name att = .ok c) :
    execute_agent a false outputs runner att =
      (([Effect.beforeHooks a.name] ++
          (if a.memory then [Effect.memoryUse a.name] else []) ++
          [Effect.runnerCall a.name (contextOf outputs a)]) ++
        [Effect.afterHooks a.name],
       .ok ⟨a.name, keyOf a, .llm c, "success"⟩) := by
  unfold execute_agent
  rw [h]
  simp

lemma execute_agent_err {a : AgentNode} {outputs : List (String × AgentOutputM)}
    {runner : Runner} {att : Nat} {e : String}
    (h : runner a.name att = .error e) :
    execute_agent a false outputs runner att =
      ([Effect.beforeHooks a.name] ++
          (if a.memory then [Effect.memoryUse a.name] else []) ++
          [Effect.runnerCall a.name (contextOf outputs a)],
       .error e) := by
  unfold execute_agent
  rw [h]
  rfl

lemma executeAgentFrom_step {a : AgentNode} {outputs : List (String × AgentOutputM)}
    {runner : Runner} {att r : Nat} {e : String}
    (he : runner a.name att = .error e) :
    executeAgentFrom a false outputs runner att (r + 1) =
      (([Effect.beforeHooks a.name] ++
          (if a.memory then [Effect.memoryUse a.name] else []) ++
          [Effect.runnerCall a.name (contextOf outputs a)]) ++
        [Effect.backoff (2 ^ att)] ++
          (executeAgentFrom a false outputs runner (att + 1) r).1,
       (executeAgentFrom a false outputs runner (att + 1) r).2) := by
  show (match execute_agent a false outputs runner att with
    | (tr, .ok out) => (tr, Except.ok out)
    | (tr, .error _) =>
      let (tr', res) := executeAgentFrom a false outputs runner (att + 1) r
      (tr ++ [Effect.backoff (2 ^ att)] ++ tr', res)) = _
  rw [execute_agent_err he]

lemma executeAgentFrom_ok {a : AgentNode} {outputs : List (String × AgentOutputM)}
    {runner : Runner} {c : String} :
    ∀ (k att r : Nat), k ≤ r →
    (∀ i, i < k → (runner a.name (att + i)).isOk = false) →
    runner a.name (att + k) = .ok c →
    executeAgentFrom a false outputs runner att r =
      ((List.range k).flatMap
          (fun i =>
            ([Effect.beforeHooks a.name] ++
              (if a.memory then [Effect.memoryUse a.name] else []) ++
              [Effect.runnerCall a.name (contextOf outputs a)]) ++
            [Effect.backoff (2 ^ (att + i))]) ++
        (([Effect.beforeHooks a.name] ++
            (if a.memory then [Effect.memoryUse a.name] else []) ++
            [Effect.runnerCall a.name (contextOf outputs a)]) ++
          [Effect.afterHooks a.name]),
       .ok ⟨a.name, keyOf a, .llm c, "success"⟩) := by
  intro k
  induction k with
  | zero =>
    intro att r _ _ hok
    rw [Nat.add_zero] at hok
    simp only [List.range_zero, List.flatMap_nil, List.nil_append]
    cases r with
    | zero =>
      show execute_agent a false outputs runner att = _
      exact execute_agent_ok hok
    | succ r =>
      show (match execute_agent a false outputs runner att with
        | (tr, .ok out) => (tr, Except.ok out)
        | (tr, .error _) =>
          let (tr', res) := executeAgentFrom a false outputs runner (att + 1) r
          (tr ++ [Effect.backoff (2 ^ att)] ++ tr', res)) = _
      rw [execute_agent_ok hok]
  | succ k ih =>
    intro att r hk hfail hok
    cases r with
    | zero => omega
    | succ r =>
      have h0 : (runner a.name att).isOk = false := by
        have := hfail 0 (by omega)
        rw [Nat.add_zero] at this
        exact this
      obtain ⟨e, he⟩ : ∃ e, runner a.name att = .error e := by
        cases hr : runner a.name att with
        | ok c' => rw [hr] at h0; cases h0
        | error e => exact ⟨e, rfl⟩
      have hfail' : ∀ i, i < k → (runner a.name (att + 1 + i)).isOk = false := by
        intro i hi
        have := hfail (i + 1) (by omega)
        rw [show att + (i + 1) = att + 1 + i by omega] at this
        exact this
      have hok' : runner a.name (att + 1 + k) = .ok c := by
        rw [show att + 1 + k = att + (k + 1) by omega]
        exact hok
      have hrec := ih (att + 1) r (by omega) hfail' hok'
      rw [executeAgentFrom_step he, hrec]
      have hfun : (fun i => ([Effect.beforeHooks a.name] ++
            (if a.memory then [Effect.memoryUse a.name] else []) ++
            [Effect.runnerCall a.name (contextOf outputs a)]) ++
            [Effect.backoff (2 ^ (att + 1 + i))]) =
          (fun i => ([Effect.beforeHooks a.name] ++
            (if a.memory then [Effect.memoryUse a.name] else []) ++
            [Effect.runnerCall a.name (contextOf outputs a)]) ++
            [Effect.backoff (2 ^ (att + (i + 1)))]) := by
        funext i
        rw [show att + 1 + i = att + (i + 1) by omega]
      rw [List.range_succ_eq_map, List.flatMap_cons, List.flatMap_map]
      simp only [Prod.mk.injEq]
      constructor
      · rw [← hfun]
        simp only [Nat.add_zero, Function.comp_def, List.append_assoc]
      · trivial

lemma filter_flatMap {α β : Type} {l : List α} {f : α → List β} {p : β → Bool} :
    (l.flatMap f).filter p = l.flatMap (fun a => (f a).filter p) := by
  induction l with
  | nil => rfl
  | cons a l ih => simp [List.filter_append, ih]

lemma flatMap_single {α β : Type} {l : List α} {g : α → β} :
    l.flatMap (fun a => [g a]) = l.map g := by
  induction l with
  | nil => rfl
  | cons a l ih => simp [ih]

/-- C6: when the Agent Runner raises on the first k attempts and succeeds on
attempt k within the max_retries budget, the retry wrapper returns the
success output, the observed backoff sleeps are exactly base * 2 ^ i
seconds for i below k (base hardcoded to 1 second), and the runner is
invoked exactly k + 1 times, that is, k retries. -/
theorem c6_retry_with_backoff (a : AgentNode)
    (outputs : List (String × AgentOutputM)) (runner : Runner)
    (mr k : Nat) (c : String) (hk : k ≤ mr)
    (hfail : ∀ i, i < k → (runner a.name i).isOk = false)
    (hok : runner a.name k = .ok c) :
    (execute_agent_with_retry a false outputs runner mr).2 =
      .ok ⟨a.name, keyOf a, .llm c, "success"⟩ ∧
    ((execute_agent_with_retry a false outputs runner mr).1).filter isBackoff =
      (List.range k).map (fun i => Effect.backoff (2 ^ i)) ∧
    (((execute_agent_with_retry a false outputs runner mr).1).filter
        (isRunnerCallOf a.name)).length = k + 1 := by
  have hfail' : ∀ i, i < k → (runner a.name (0 + i)).isOk = false := by
    intro i hi
    rw [Nat.zero_add]
    exact hfail i hi
  have hok' : runner a.name (0 + k) = .ok c := by
    rw [Nat.zero_add]
    exact hok
  have h := @executeAgentFrom_ok a outputs runner c k 0 mr hk hfail' hok'
  unfold execute_agent_with_retry
  rw [h]
  have hbase : ([Effect.beforeHooks a.name] ++
      (if a.memory then [Effect.memoryUse a.name] else []) ++
      [Effect.runnerCall a.name (contextOf outputs a)]).filter isBackoff = [] := by
    cases a.memory <;> simp [isBackoff]
  have hbaserc : ([Effect.beforeHooks a.name] ++
      (if a.memory then [Effect.memoryUse a.name] else []) ++
      [Effect.runnerCall a.name (contextOf outputs a)]).filter
        (isRunnerCallOf a.name) = [Effect.runnerCall a.name (contextOf outputs a)] := by
    cases a.memory <;> simp [isRunnerCallOf]
  refine ⟨rfl, ?_, ?_⟩
  · rw [List.filter_append, filter_flatMap]
    simp only [List.filter_append, hbase, List.nil_append]
    have hsing : ∀ i : Nat, ([Effect.backoff (2 ^ (0 + i))].filter isBackoff) =
        [Effect.backoff (2 ^ i)] := by
      intro i
      rw [Nat.zero_add]
      rfl
    simp only [hsing]
    rw [flatMap_single]
    simp [isBackoff]
  · rw [List.filter_append, filter_flatMap]
    simp only [List.filter_append, hbase, hbaserc, List.nil_append]
    have hsing : ∀ i : Nat,
        ([Effect.backoff (2 ^ (0 + i))].filter (isRunnerCallOf a.name)) = [] := by
      intro i
      rfl
    simp only [hsing, List.append_nil]
    rw [flatMap_single]
    simp [isRunnerCallOf]

/-- Witness for C6: a runner failing on attempts 0 and 1 and succeeding on
attempt 2, with max_retries = 2, finishes SUCCESS after exactly 2
retries with backoff delays 1 and 2 seconds. -/
theorem c6_retry_with_backoff_witness :
    (execute_agent_with_retry ⟨"a", none, none, false, none⟩ false []
        (fun _ att => if att < 2 then .error "boom" else .ok "done") 2).2 =
      .ok ⟨"a", "a", .llm "done", "success"⟩ ∧
    ((execute_agent_with_retry ⟨"a", none, none, false, none⟩ false []
        (fun _ att => if att < 2 then .error "boom" else .ok "done") 2).1).filter
      isBackoff = [Effect.backoff 1, Effect.backoff 2] ∧
    (((execute_agent_with_retry ⟨"a", none, none, false, none⟩ false []
        (fun _ att => if att < 2 then .error "boom" else .ok "done") 2).1).filter
      (isRunnerCallOf "a")).length = 2 + 1 :=
  c6_retry_with_backoff ⟨"a", none, none, false, none⟩ []
    (fun _ att => if att < 2 then .error "boom" else .ok "done") 2 2 "done"
    (by decide) (by decide) rfl

/-! Lemmas and claim theorems for the executor traces. -/

lemma execute_agent_no_smCall {a : AgentNode} {dry : Bool}
    {o : List (String × AgentOutputM)} {runner : Runner} {att : Nat} :
    ∀ e ∈ (execute_agent a dry o runner att).1, ∀ m, e ≠ Effect.smCall m := by
  intro e he m
  unfold execute_agent at he
  cases dry with
  | true =>
    simp at he
    rcases he with rfl | rfl | rfl <;> simp
  | false =>
    cases hr : runner a.name att with
    | ok c =>
      rw [hr] at he
      cases hm : a.memory <;> rw [hm] at he <;> simp at he <;>
        rcases he with rfl | rfl | rfl | rfl <;> simp
    | error err =>
      rw [hr] at he
      cases hm : a.memory <;> rw [hm] at he <;> simp at he <;>
        first
        | (rcases he with rfl | rfl <;> simp)
        | (rcases he with rfl | rfl | rfl <;> simp)

lemma executeAgentFrom_no_smCall {a : AgentNode} {dry : Bool}
    {o : List (String × AgentOutputM)} {runner : Runner} :
    ∀ (r att : Nat), ∀ e ∈ (executeAgentFrom a dry o runner att r).1,
      ∀ m, e ≠ Effect.smCall m := by
  intro r
  induction r with
  | zero => exact fun att => execute_agent_no_smCall
  | succ r ih =>
    intro att e he m
    have hstep : executeAgentFrom a dry o runner att (r + 1) =
        (match execute_agent a dry o runner att with
         | (tr, .ok out) => (tr, Except.ok out)
         | (tr, .error _) =>
           let (tr', res) := executeAgentFrom a dry o runner (att + 1) r
           (tr ++ [Effect.backoff (2 ^ att)] ++ tr', res)) := rfl
    rw [hstep] at he
    cases hx : execute_agent a dry o runner att with
    | mk tr res =>
      rw [hx] at he
      cases res with
      | ok out =>
        simp only at he
        exact execute_agent_no_smCall e (by rw [hx]; exact he) m
      | error err =>
        simp only at he
        simp only [List.mem_append, List.mem_singleton] at he
        rcases he with (he | rfl) | he
        · exact execute_agent_no_smCall e (by rw [hx]; exact he) m
        · simp
        · exact ih (att + 1) e he m

lemma processAgent_smCall_shape {g : List AgentNode} {sm stor dry : Bool}
    {runner : Runner} {mr : Nat} {st : RunState} {n : String} :
    ∀ e ∈ (processAgent g sm stor dry runner mr st n).1, ∀ m,
      e = Effect.smCall m → m ∈ executorStateMethodCalls := by
  intro e he m hm
  unfold processAgent at he
  cases hf : g.find? (fun a => a.name == n) with
  | none =>
    rw [hf] at he
    simp at he
  | some a =>
    rw [hf] at he
    simp only at he
    cases hx : execute_agent_with_retry a dry st.outputs runner mr with
    | mk tr res =>
      rw [hx] at he
      cases res with
      | ok out =>
        simp only at he
        by_cases hsm : (sm && !dry) = true
        · rw [if_pos hsm] at he
          simp only [List.mem_append, List.mem_singleton] at he
          rcases he with he | rfl
          · refine absurd hm (@executeAgentFrom_no_smCall a dry st.outputs runner mr 0 e ?_ m)
            show e ∈ (execute_agent_with_retry a dry st.outputs runner mr).1
            rw [hx]
            exact he
          · cases hm
            simp [executorStateMethodCalls]
        · rw [if_neg hsm] at he
          simp only [List.mem_append] at he
          rcases he with he | he
          · refine absurd hm (@executeAgentFrom_no_smCall a dry st.outputs runner mr 0 e ?_ m)
            show e ∈ (execute_agent_with_retry a dry st.outputs runner mr).1
            rw [hx]
            exact he
          · by_cases hs : (stor && !dry && a.storage.isSome && (a.storage == some true)) = true
            · rw [if_pos hs] at he
              simp at he
              rw [he] at hm
              cases hm
            · rw [if_neg hs] at he
              simp at he
      | error err =>
        simp only at he
        refine absurd hm (@executeAgentFrom_no_smCall a dry st.outputs runner mr 0 e ?_ m)
        show e ∈ (execute_agent_with_retry a dry st.outputs runner mr).1
        rw [hx]
        exact he

lemma runLoop_smCall_shape {g : List AgentNode} {sm stor dry : Bool}
    {runner : Runner} {mr : Nat} :
    ∀ (ns : List String) (st : RunState),
      ∀ e ∈ (runLoop g sm stor dry runner mr ns st).1, ∀ m,
        e = Effect.smCall m → m ∈ executorStateMethodCalls := by
  intro ns
  induction ns with
  | nil =>
    intro st e he
    simp [runLoop] at he
  | cons n rest ih =>
    intro st e he m hm
    unfold runLoop at he
    cases hp : processAgent g sm stor dry runner mr st n with
    | mk tr res =>
      rw [hp] at he
      cases res with
      | ok st' =>
        simp only [List.mem_append] at he
        rcases he with he | he
        · exact processAgent_smCall_shape e (by rw [hp]; exact he) m hm
        · exact ih st' e he m hm
      | error err =>
        simp only at he
        exact processAgent_smCall_shape e (by rw [hp]; exact he) m hm

lemma execute_flow_smCall_shape {g : List AgentNode} {wn : String}
    {sm stor dry : Bool} {runner : Runner} {mr : Nat} :
    ∀ e ∈ (execute_flow g wn sm stor dry runner mr).1, ∀ m,
      e = Effect.smCall m → m ∈ executorStateMethodCalls := by
  intro e he m hm
  unfold execute_flow at he
  cases ho : getExecutionOrder g with
  | error ge =>
    rw [ho] at he
    simp at he
  | ok order =>
    rw [ho] at he
    simp only at he
    by_cases hsm : (sm && !dry) = true
    · rw [if_pos hsm] at he
      simp at he
      rw [he] at hm
      cases hm
      simp [executorStateMethodCalls]
    · rw [if_neg hsm] at he
      cases hr : runLoop g sm stor dry runner mr order ⟨[], 0, 0⟩ with
      | mk tr res =>
        rw [hr] at he
        cases res with
        | ok st =>
          simp only at he
          rw [if_neg hsm] at he
          exact runLoop_smCall_shape order ⟨[], 0, 0⟩ e (by rw [hr]; exact he) m hm
        | error err =>
          simp only at he
          exact runLoop_smCall_shape order ⟨[], 0, 0⟩ e (by rw [hr]; exact he) m hm

/-- C1: contrary to the claim, execute_flow never dispatches create_lock or
release_lock on the state manager on any run, and a real run with the
StateManager present aborts with AttributeError at initial state
creation before an agent executes.  This supports classifying the code
as buggy against the spec's lock lifecycle. -/
theorem c1_no_lock_lifecycle (g : List AgentNode) (wn : String)
    (sm stor dry : Bool) (runner : Runner) (mr : Nat) :
    Effect.smCall "create_lock" ∉ (execute_flow g wn sm stor dry runner mr).1 ∧
    Effect.smCall "release_lock" ∉ (execute_flow g wn sm stor dry runner mr).1 ∧
    (hasCycle g = false → sm = true → dry = false →
      (execute_flow g wn sm stor dry runner mr).2 =
        .error (.attributeError "create_execution_state")) := by
  refine ⟨?_, ?_, ?_⟩
  · intro hmem
    have := execute_flow_smCall_shape _ hmem "create_lock" rfl
    simp [executorStateMethodCalls] at this
  · intro hmem
    have := execute_flow_smCall_shape _ hmem "release_lock" rfl
    simp [executorStateMethodCalls] at this
  · intro hA hsm hdry
    subst hsm hdry
    simp [execute_flow, getExecutionOrder, hA]

/-- C2: the executor dispatches create_execution_state, update_agent_status
and finalize_execution, none of which the StateManager class defines,
so every real run with a StateManager raises AttributeError during
initial state creation, before any agent executes (the full trace is
the single failed dispatch). -/
theorem c2_missing_state_manager_methods :
    (∀ m ∈ executorStateMethodCalls, m ∉ stateManagerMethods) ∧
    ∀ (g : List AgentNode) (wn : String) (stor : Bool) (runner : Runner)
      (mr : Nat), hasCycle g = false →
      execute_flow g wn true stor false runner mr =
        ([.smCall "create_execution_state"],
         .error (.attributeError "create_execution_state")) := by
  constructor
  · decide
  · intro g wn stor runner mr hA
    simp [execute_flow, getExecutionOrder, hA]

lemma executeAgentFrom_dry {a : AgentNode} {o : List (String × AgentOutputM)}
    {runner : Runner} {att : Nat} :
    ∀ r, executeAgentFrom a true o runner att r =
      ([Effect.beforeHooks a.name, Effect.simDelay a.name, Effect.afterHooks a.name],
       .ok ⟨a.name, keyOf a, .dryRun, "success"⟩) := by
  intro r
  cases r with
  | zero => rfl
  | succ r => rfl

lemma storeOut_mem {o : List (String × AgentOutputM)} {k : String}
    {out : AgentOutputM} {p : String × AgentOutputM}
    (hp : p ∈ storeOut o k out) : p ∈ o ∨ p = (k, out) := by
  unfold storeOut at hp
  by_cases hex : (o.find? (fun q => q.1 == k)).isSome = true
  · rw [if_pos hex] at hp
    obtain ⟨q, hq, hqe⟩ := List.mem_map.mp hp
    by_cases hqk : q.1 = k
    · right
      rw [← hqe]
      simp [hqk]
    · left
      rw [← hqe]
      rw [if_neg (by simpa using hqk : ¬((q.1 == k) = true))]
      exact hq
  · rw [if_neg hex] at hp
    rcases List.mem_append.mp hp with h | h
    · exact Or.inl h
    · right
      simpa using h

lemma processAgent_dry {g : List AgentNode} {sm stor : Bool} {runner : Runner}
    {mr : Nat} {st : RunState} {n : String} (hn : n ∈ nodeNames g) :
    ∃ a, g.find? (fun b => b.name == n) = some a ∧ a.name = n ∧
      processAgent g sm stor true runner mr st n =
        ([Effect.beforeHooks n, Effect.simDelay n, Effect.afterHooks n],
         .ok ⟨storeOut st.outputs (keyOf a) ⟨n, keyOf a, .dryRun, "success"⟩,
              st.successful + 1, st.failed⟩) := by
  have hfs : (g.find? (fun b => b.name == n)).isSome = true := by
    rw [List.find?_isSome]
    obtain ⟨a, ha, rfl⟩ := mem_names_iff.mp hn
    exact ⟨a, ha, by simp⟩
  obtain ⟨a, hf⟩ := Option.isSome_iff_exists.mp hfs
  have han : a.name = n := by
    have := List.find?_some hf
    simpa using this
  refine ⟨a, hf, han, ?_⟩
  unfold processAgent
  rw [hf]
  dsimp only
  rw [show execute_agent_with_retry a true st.outputs runner mr =
    ([Effect.beforeHooks a.name, Effect.simDelay a.name, Effect.afterHooks a.name],
     .ok ⟨a.name, keyOf a, .dryRun, "success"⟩) from executeAgentFrom_dry mr]
  simp [han]

lemma gens_subset_names {g : List AgentNode} {k : Nat} {x : String}
    (hx : x ∈ gens g k) : x ∈ nodeNames g := by
  cases k with
  | zero =>
    obtain ⟨a, ha, rfl⟩ := List.mem_map.mp hx
    exact List.mem_map_of_mem _ (List.mem_filter.mp ha).1
  | succ k =>
    obtain ⟨u, -, hxc⟩ := List.mem_flatMap.mp hx
    obtain ⟨a, ha, rfl⟩ := List.mem_map.mp hxc
    exact List.mem_map_of_mem _ (List.mem_filter.mp ha).1

lemma execOrder_subset_names {g : List AgentNode} {x : String}
    (hx : x ∈ execOrderList g) : x ∈ nodeNames g := by
  obtain ⟨k, -, hxk⟩ := List.mem_flatMap.mp hx
  exact gens_subset_names hxk

lemma runLoop_dry {g : List AgentNode} {sm stor : Bool} {runner : Runner}
    {mr : Nat} :
    ∀ (ns : List String) (st : RunState), (∀ n ∈ ns, n ∈ nodeNames g) →
      ∃ tr st', runLoop g sm stor true runner mr ns st = (tr, .ok st') ∧
        st'.successful = st.successful + ns.length ∧
        st'.failed = st.failed ∧
        (∀ e ∈ tr, isSimEffect e = true) ∧
        (∀ n ∈ ns, Effect.simDelay n ∈ tr) ∧
        (∀ p ∈ st'.outputs, p ∈ st.outputs ∨ p.2.data = .dryRun) := by
  intro ns
  induction ns with
  | nil =>
    intro st _
    refine ⟨[], st, rfl, by simp, rfl, by simp, by simp, fun p hp => Or.inl hp⟩
  | cons n rest ih =>
    intro st hns
    obtain ⟨a, hf, han, heq⟩ :=
      @processAgent_dry g sm stor runner mr st n (hns n (by simp))
    obtain ⟨tr', st'', hrec, hsucc, hfail, hsim, hdel, hout⟩ :=
      ih ⟨storeOut st.outputs (keyOf a) ⟨n, keyOf a, .dryRun, "success"⟩,
          st.successful + 1, st.failed⟩ (fun n' hn' => hns n' (by simp [hn']))
    refine ⟨[Effect.beforeHooks n, Effect.simDelay n, Effect.afterHooks n] ++ tr',
      st'', ?_, ?_, ?_, ?_, ?_, ?_⟩
    · unfold runLoop
      rw [heq]
      dsimp only
      rw [hrec]
    · simp only [hsucc, List.length_cons]
      omega
    · exact hfail
    · intro e he
      rcases List.mem_append.mp he with he | he
      · simp only [List.mem_cons, List.mem_singleton] at he
        rcases he with rfl | rfl | he
        · rfl
        · rfl
        · simp at he
          rw [he]
          rfl
      · exact hsim e he
    · intro n' hn'
      rcases List.mem_cons.mp hn' with rfl | hn'
      · exact List.mem_append.mpr (Or.inl (by simp))
      · exact List.mem_append.mpr (Or.inr (hdel n' hn'))
    · intro p hp
      rcases hout p hp with hp1 | hd
      · rcases storeOut_mem hp1 with hpo | rfl
        · exact Or.inl hpo
        · exact Or.inr rfl
      · exact Or.inr hd

/-- C8: a dry run produces only hook and simulated-delay effects — no lock
or state-manager dispatch, no storage write, no Agent Runner call, no
memory-subsystem use — and, on an acyclic graph, succeeds with every
agent simulated (a delay per scheduled agent) and a canned dry-run
payload recorded for each. -/
theorem c8_dry_run_frame (g : List AgentNode) (wn : String) (sm stor : Bool)
    (runner : Runner) (mr : Nat) :
    (∀ e ∈ (execute_flow g wn sm stor true runner mr).1, isSimEffect e = true) ∧
    (hasCycle g = false →
      ∃ s, (execute_flow g wn sm stor true runner mr).2 = .ok s ∧
        s.successful = s.totalAgents ∧ s.failed = 0 ∧
        (∀ p ∈ s.outputs, p.2.data = .dryRun) ∧
        ∀ n ∈ execOrderList g,
          Effect.simDelay n ∈ (execute_flow g wn sm stor true runner mr).1) := by
  cases ho : getExecutionOrder g with
  | error ge =>
    have htr : execute_flow g wn sm stor true runner mr = ([], .error .networkXUnfeasible) := by
      unfold execute_flow
      rw [ho]
    constructor
    · rw [htr]
      simp
    · intro hA
      exfalso
      unfold getExecutionOrder at ho
      rw [hA] at ho
      simp at ho
  | ok order =>
    have horder : order = execOrderList g ∧ hasCycle g = false := by
      unfold getExecutionOrder at ho
      by_cases hc : hasCycle g = true
      · rw [if_pos hc] at ho
        cases ho
      · rw [if_neg hc] at ho
        cases ho
        exact ⟨rfl, by simpa using hc⟩
    obtain ⟨rfl, hA⟩ := horder
    obtain ⟨tr, st', hloop, hsucc, hfail, hsimE, hdelay, houts⟩ :=
      runLoop_dry (execOrderList g) ⟨[], 0, 0⟩
        (fun n hn => execOrder_subset_names hn)
    have htr : execute_flow g wn sm stor true runner mr =
        (tr, .ok ⟨wn, (execOrderList g).length, st'.successful, st'.failed,
          st'.outputs⟩) := by
      unfold execute_flow
      rw [ho]
      simp only [Bool.not_true, Bool.and_false, Bool.false_eq_true, if_false]
      rw [hloop]
    constructor
    · rw [htr]
      exact hsimE
    · intro _
      refine ⟨⟨wn, (execOrderList g).length, st'.successful, st'.failed, st'.outputs⟩,
        by rw [htr], ?_, ?_, ?_, ?_⟩
      · show st'.successful = (execOrderList g).length
        simpa using hsucc
      · show st'.failed = 0
        simpa using hfail
      · intro p hp
        rcases houts p hp with hp0 | hd
        · simp at hp0
        · exact hd
      · intro n hn
        rw [htr]
        exact hdelay n hn

/-- Witness for C1: a real single-agent run with the default
StateManager-backed executor never touches the lock and dies with
AttributeError at initial state creation. -/
theorem c1_no_lock_lifecycle_witness :
    Effect.smCall "create_lock" ∉
      (execute_flow [⟨"a", none, none, false, none⟩] "w" true false false
        (fun _ _ => .ok "x") 0).1 ∧
    Effect.smCall "release_lock" ∉
      (execute_flow [⟨"a", none, none, false, none⟩] "w" true false false
        (fun _ _ => .ok "x") 0).1 ∧
    (execute_flow [⟨"a", none, none, false, none⟩] "w" true false false
        (fun _ _ => .ok "x") 0).2 =
      .error (.attributeError "create_execution_state") :=
  ⟨(c1_no_lock_lifecycle [⟨"a", none, none, false, none⟩] "w" true false false
      (fun _ _ => .ok "x") 0).1,
   (c1_no_lock_lifecycle [⟨"a", none, none, false, none⟩] "w" true false false
      (fun _ _ => .ok "x") 0).2.1,
   (c1_no_lock_lifecycle [⟨"a", none, none, false, none⟩] "w" true false false
      (fun _ _ => .ok "x") 0).2.2 (by decide) rfl rfl⟩

/-- Witness for C2 on a one-agent weave. -/
theorem c2_missing_state_manager_methods_witness :
    (∀ m ∈ executorStateMethodCalls, m ∉ stateManagerMethods) ∧
    execute_flow [⟨"a", none, none, false, none⟩] "w" true false false
        (fun _ _ => .ok "x") 0 =
      ([.smCall "create_execution_state"],
       .error (.attributeError "create_execution_state")) :=
  ⟨c2_missing_state_manager_methods.1,
   c2_missing_state_manager_methods.2 [⟨"a", none, none, false, none⟩] "w"
     false (fun _ _ => .ok "x") 0 (by decide)⟩

/-- Witness for C8: a dry run of a two-agent weave with a state manager and
storage present. -/
theorem c8_dry_run_frame_witness :
    (∀ e ∈ (execute_flow
        [⟨"a", none, none, true, some true⟩, ⟨"b", some "a", none, false, none⟩]
        "w" true true true (fun _ _ => .error "never") 3).1,
      isSimEffect e = true) ∧
    ∃ s, (execute_flow
        [⟨"a", none, none, true, some true⟩, ⟨"b", some "a", none, false, none⟩]
        "w" true true true (fun _ _ => .error "never") 3).2 = .ok s ∧
      s.successful = s.totalAgents ∧ s.failed = 0 ∧
      (∀ p ∈ s.outputs, p.2.data = .dryRun) ∧
      ∀ n ∈ execOrderList
        [⟨"a", none, none, true, some true⟩, ⟨"b", some "a", none, false, none⟩],
        Effect.simDelay n ∈ (execute_flow
          [⟨"a", none, none, true, some true⟩, ⟨"b", some "a", none, false, none⟩]
          "w" true true true (fun _ _ => .error "never") 3).1 :=
  ⟨(c8_dry_run_frame
      [⟨"a", none, none, true, some true⟩, ⟨"b", some "a", none, false, none⟩]
      "w" true true (fun _ _ => .error "never") 3).1,
   (c8_dry_run_frame
      [⟨"a", none, none, true, some true⟩, ⟨"b", some "a", none, false, none⟩]
      "w" true true (fun _ _ => .error "never") 3).2 (by decide)⟩

lemma find?_map_replace_ne {o : List (String × AgentOutputM)} {k k' : String}
    {out : AgentOutputM} (hne : k' ≠ k) :
    (o.map (fun p => if p.1 == k then (k, out) else p)).find? (fun q => q.1 == k') =
      o.find? (fun q => q.1 == k') := by
  induction o with
  | nil => rfl
  | cons p rest ih =>
    by_cases hpk : p.1 = k
    · simp only [List.map_cons, if_pos (by simpa using hpk : (p.1 == k) = true)]
      rw [List.find?_cons, List.find?_cons]
      simp only [show (k == k') = false by simp [Ne.symm hne],
        show (p.1 == k') = false by simp [hpk, Ne.symm hne]]
      exact ih
    · simp only [List.map_cons, if_neg (by simpa using hpk : ¬(p.1 == k) = true)]
      rw [List.find?_cons, List.find?_cons]
      cases hpk' : (p.1 == k') with
      | true => rfl
      | false => exact ih

lemma find?_map_replace_self {o : List (String × AgentOutputM)} {k : String}
    {out : AgentOutputM} (hex : (o.find? (fun q => q.1 == k)).isSome = true) :
    (o.map (fun p => if p.1 == k then (k, out) else p)).find? (fun q => q.1 == k) =
      some (k, out) := by
  induction o with
  | nil => simp at hex
  | cons p rest ih =>
    by_cases hpk : p.1 = k
    · simp only [List.map_cons, if_pos (by simpa using hpk : (p.1 == k) = true)]
      rw [List.find?_cons]
      simp
    · simp only [List.map_cons, if_neg (by simpa using hpk : ¬(p.1 == k) = true)]
      rw [List.find?_cons]
      simp only [show (p.1 == k) = false by simpa using hpk]
      apply ih
      rw [List.find?_cons] at hex
      simpa [show (p.1 == k) = false by simpa using hpk] using hex

lemma lookupOut_storeOut_self {o : List (String × AgentOutputM)} {k : String}
    {out : AgentOutputM} : lookupOut (storeOut o k out) k = some out := by
  unfold storeOut lookupOut
  by_cases hex : (o.find? (fun q => q.1 == k)).isSome = true
  · rw [if_pos hex, find?_map_replace_self hex]
    rfl
  · rw [if_neg hex, List.find?_append]
    rw [Option.not_isSome_iff_eq_none] at hex
    rw [hex]
    simp

lemma lookupOut_storeOut_other {o : List (String × AgentOutputM)} {k k' : String}
    {out : AgentOutputM} (hne : k' ≠ k) :
    lookupOut (storeOut o k out) k' = lookupOut o k' := by
  unfold storeOut lookupOut
  by_cases hex : (o.find? (fun q => q.1 == k)).isSome = true
  · rw [if_pos hex, find?_map_replace_ne hne]
  · rw [if_neg hex, List.find?_append]
    simp [show (k == k') = false by simp [Ne.symm hne]]

lemma executeAgentFrom_outcome {a : AgentNode} {o : List (String × AgentOutputM)}
    {runner : Runner} :
    ∀ (r att : Nat), (executeAgentFrom a false o runner att r).2 =
      match runnerOutcome runner a.name att r with
      | .ok c => .ok ⟨a.name, keyOf a, .llm c, "success"⟩
      | .error e => .error e := by
  intro r
  induction r with
  | zero =>
    intro att
    show (execute_agent a false o runner att).2 = _
    unfold runnerOutcome
    cases hr : runner a.name att with
    | ok c => rw [execute_agent_ok hr]
    | error e => rw [execute_agent_err hr]
  | succ r ih =>
    intro att
    unfold runnerOutcome
    cases hr : runner a.name att with
    | ok c =>
      show (match execute_agent a false o runner att with
        | (tr, .ok out) => (tr, Except.ok out)
        | (tr, .error _) =>
          let (tr', res) := executeAgentFrom a false o runner (att + 1) r
          (tr ++ [Effect.backoff (2 ^ att)] ++ tr', res)).2 = _
      rw [execute_agent_ok hr]
    | error e =>
      rw [executeAgentFrom_step hr]
      exact ih (att + 1)

lemma executeAgentFrom_effects {a : AgentNode} {o : List (String × AgentOutputM)}
    {runner : Runner} :
    ∀ (r att : Nat), ∀ e ∈ (executeAgentFrom a false o runner att r).1,
      e = Effect.beforeHooks a.name ∨ e = Effect.memoryUse a.name ∨
      e = Effect.afterHooks a.name ∨ (∃ s, e = Effect.backoff s) ∨
      e = Effect.runnerCall a.name (contextOf o a) := by
  intro r
  induction r with
  | zero =>
    intro att e he
    show e = _ ∨ _
    have : e ∈ (execute_agent a false o runner att).1 := he
    cases hr : runner a.name att with
    | ok c =>
      rw [execute_agent_ok hr] at this
      cases hm : a.memory <;> rw [hm] at this <;> simp at this <;> tauto
    | error err =>
      rw [execute_agent_err hr] at this
      cases hm : a.memory <;> rw [hm] at this <;> simp at this <;> tauto
  | succ r ih =>
    intro att e he
    cases hr : runner a.name att with
    | ok c =>
      have hstep : executeAgentFrom a false o runner att (r + 1) =
          (match execute_agent a false o runner att with
           | (tr, .ok out) => (tr, Except.ok out)
           | (tr, .error _) =>
             let (tr', res) := executeAgentFrom a false o runner (att + 1) r
             (tr ++ [Effect.backoff (2 ^ att)] ++ tr', res)) := rfl
      rw [hstep, execute_agent_ok hr] at he
      dsimp only at he
      cases hm : a.memory <;> rw [hm] at he <;> simp at he <;> tauto
    | error err =>
      rw [executeAgentFrom_step hr] at he
      simp only [List.mem_append, List.mem_singleton] at he
      rcases he with (he | rfl) | he
      · cases hm : a.memory <;> rw [hm] at he <;> simp at he <;> tauto
      · right; right; right
        exact Or.inl ⟨2 ^ att, rfl⟩
      · exact ih (att + 1) e he

lemma executeAgentFrom_runnerCall_mem {a : AgentNode}
    {o : List (String × AgentOutputM)} {runner : Runner} :
    ∀ (r att : Nat),
      Effect.runnerCall a.name (contextOf o a) ∈
        (executeAgentFrom a false o runner att r).1 := by
  intro r
  induction r with
  | zero =>
    intro att
    show _ ∈ (execute_agent a false o runner att).1
    cases hr : runner a.name att with
    | ok c => rw [execute_agent_ok hr]; simp
    | error e => rw [execute_agent_err hr]; simp
  | succ r ih =>
    intro att
    cases hr : runner a.name att with
    | ok c =>
      have hstep : executeAgentFrom a false o runner att (r + 1) =
          (match execute_agent a false o runner att with
           | (tr, .ok out) => (tr, Except.ok out)
           | (tr, .error _) =>
             let (tr', res) := executeAgentFrom a false o runner (att + 1) r
             (tr ++ [Effect.backoff (2 ^ att)] ++ tr', res)) := rfl
      rw [hstep, execute_agent_ok hr]
      simp
    | error e =>
      rw [executeAgentFrom_step hr]
      simp only [List.mem_append]
      exact Or.inr (ih (att + 1))

lemma executeAgentFrom_afterHooks {a : AgentNode}
    {o : List (String × AgentOutputM)} {runner : Runner} :
    ∀ (r att : Nat),
      (Effect.afterHooks a.name ∈ (executeAgentFrom a false o runner att r).1 ↔
        (runnerOutcome runner a.name att r).isOk = true) := by
  intro r
  induction r with
  | zero =>
    intro att
    unfold runnerOutcome
    cases hr : runner a.name att with
    | ok c =>
      rw [show (executeAgentFrom a false o runner att 0).1 =
        (execute_agent a false o runner att).1 from rfl, execute_agent_ok hr]
      simp [Except.isOk, Except.toBool]
    | error e =>
      rw [show (executeAgentFrom a false o runner att 0).1 =
        (execute_agent a false o runner att).1 from rfl, execute_agent_err hr]
      cases hm : a.memory <;> simp [hm, Except.isOk, Except.toBool]
  | succ r ih =>
    intro att
    unfold runnerOutcome
    cases hr : runner a.name att with
    | ok c =>
      have hstep : executeAgentFrom a false o runner att (r + 1) =
          (match execute_agent a false o runner att with
           | (tr, .ok out) => (tr, Except.ok out)
           | (tr, .error _) =>
             let (tr', res) := executeAgentFrom a false o runner (att + 1) r
             (tr ++ [Effect.backoff (2 ^ att)] ++ tr', res)) := rfl
      rw [hstep, execute_agent_ok hr]
      simp [Except.isOk, Except.toBool]
    | error e =>
      rw [executeAgentFrom_step hr]
      simp only [List.mem_append, List.mem_singleton]
      constructor
      · intro h
        rcases h with (((h | h) | h) | h) | h
        · simp at h
        · cases hm : a.memory <;> rw [hm] at h <;> simp at h
        · simp at h
        · simp at h
        · exact (ih (att + 1)).mp h
      · intro h
        exact Or.inr ((ih (att + 1)).mpr h)

lemma executeAgentFrom_beforeHooks {a : AgentNode}
    {o : List (String × AgentOutputM)} {runner : Runner} :
    ∀ (r att : Nat),
      Effect.beforeHooks a.name ∈ (executeAgentFrom a false o runner att r).1 := by
  intro r
  induction r with
  | zero =>
    intro att
    show _ ∈ (execute_agent a false o runner att).1
    cases hr : runner a.name att with
    | ok c => rw [execute_agent_ok hr]; simp
    | error e => rw [execute_agent_err hr]; simp
  | succ r ih =>
    intro att
    cases hr : runner a.name att with
    | ok c =>
      have hstep : executeAgentFrom a false o runner att (r + 1) =
          (match execute_agent a false o runner att with
           | (tr, .ok out) => (tr, Except.ok out)
           | (tr, .error _) =>
             let (tr', res) := executeAgentFrom a false o runner (att + 1) r
             (tr ++ [Effect.backoff (2 ^ att)] ++ tr', res)) := rfl
      rw [hstep, execute_agent_ok hr]
      simp
    | error e =>
      rw [executeAgentFrom_step hr]
      simp

lemma processAgent_real {g : List AgentNode} {stor : Bool} {runner : Runner}
    {mr : Nat} {st : RunState} {n : String} {b : AgentNode}
    (hf : g.find? (fun c => c.name == n) = some b) :
    ∃ tr st', processAgent g false stor false runner mr st n = (tr, .ok st') ∧
      st'.outputs = storeOut st.outputs (keyOf b) (finalOutput runner mr b) ∧
      (∀ e ∈ tr, e = Effect.beforeHooks b.name ∨ e = Effect.memoryUse b.name ∨
        e = Effect.afterHooks b.name ∨ (∃ s, e = Effect.backoff s) ∨
        e = Effect.runnerCall b.name (contextOf st.outputs b) ∨
        e = Effect.storageSave b.name) ∧
      Effect.runnerCall b.name (contextOf st.outputs b) ∈ tr ∧
      Effect.beforeHooks b.name ∈ tr ∧
      (Effect.afterHooks b.name ∈ tr ↔
        (runnerOutcome runner b.name 0 mr).isOk = true) := by
  have houtcome := @executeAgentFrom_outcome b st.outputs runner mr 0
  cases hx : execute_agent_with_retry b false st.outputs runner mr with
  | mk rtr res =>
    have hres : res = (match runnerOutcome runner b.name 0 mr with
        | .ok c => Except.ok (⟨b.name, keyOf b, .llm c, "success"⟩ : AgentOutputM)
        | .error e => .error e) := by
      rw [← houtcome]
      show res = (execute_agent_with_retry b false st.outputs runner mr).2
      rw [hx]
    have hrtr : rtr = (execute_agent_with_retry b false st.outputs runner mr).1 := by
      rw [hx]
    have hshape : ∀ e ∈ rtr, e = Effect.beforeHooks b.name ∨
        e = Effect.memoryUse b.name ∨ e = Effect.afterHooks b.name ∨
        (∃ s, e = Effect.backoff s) ∨
        e = Effect.runnerCall b.name (contextOf st.outputs b) := by
      rw [hrtr]
      exact executeAgentFrom_effects mr 0
    have hrc : Effect.runnerCall b.name (contextOf st.outputs b) ∈ rtr := by
      rw [hrtr]
      exact executeAgentFrom_runnerCall_mem mr 0
    have hbh : Effect.beforeHooks b.name ∈ rtr := by
      rw [hrtr]
      exact executeAgentFrom_beforeHooks mr 0
    have hah : Effect.afterHooks b.name ∈ rtr ↔
        (runnerOutcome runner b.name 0 mr).isOk = true := by
      rw [hrtr]
      exact executeAgentFrom_afterHooks mr 0
    unfold processAgent
    rw [hf]
    dsimp only
    rw [hx]
    cases houtc : runnerOutcome runner b.name 0 mr with
    | ok c =>
      rw [houtc] at hres hah
      subst hres
      dsimp only
      refine ⟨rtr ++ (if (stor && !false && b.storage.isSome &&
          (b.storage == some true)) = true then [Effect.storageSave b.name]
          else []), _, rfl, ?_, ?_, ?_, ?_, ?_⟩
      · show storeOut st.outputs (keyOf b) _ = storeOut st.outputs (keyOf b)
          (finalOutput runner mr b)
        unfold finalOutput
        rw [houtc]
      · intro e he
        rcases List.mem_append.mp he with he | he
        · rcases hshape e he with h | h | h | h | h <;> tauto
        · split at he
          · simp at he
            tauto
          · simp at he
      · exact List.mem_append.mpr (Or.inl hrc)
      · exact List.mem_append.mpr (Or.inl hbh)
      · constructor
        · intro h
          rcases List.mem_append.mp h with h | h
          · exact hah.mp h
          · split at h
            · simp at h
            · simp at h
        · intro h
          exact List.mem_append.mpr (Or.inl (hah.mpr h))
    | error err =>
      rw [houtc] at hres hah
      subst hres
      dsimp only
      refine ⟨rtr, _, rfl, ?_, ?_, hrc, hbh, hah⟩
      · show storeOut st.outputs (keyOf b) _ = storeOut st.outputs (keyOf b)
          (finalOutput runner mr b)
        unfold finalOutput
        rw [houtc]
      · intro e he
        rcases hshape e he with h | h | h | h | h <;> tauto

lemma runLoop_cons {g : List AgentNode} {sm stor dry : Bool} {runner : Runner}
    {mr : Nat} {n : String} {ms : List String} {st : RunState} :
    runLoop g sm stor dry runner mr (n :: ms) st =
      (match processAgent g sm stor dry runner mr st n with
       | (tr, .ok st') => (tr ++ (runLoop g sm stor dry runner mr ms st').1,
           (runLoop g sm stor dry runner mr ms st').2)
       | (tr, .error e) => (tr, .error e)) := by
  show (match processAgent g sm stor dry runner mr st n with
    | (tr, .ok st') =>
      let (tr', res) := runLoop g sm stor dry runner mr ms st'
      (tr ++ tr', res)
    | (tr, .error e) => (tr, .error e)) = _
  cases hp : processAgent g sm stor dry runner mr st n with
  | mk tr r => cases r <;> rfl

lemma runLoop_append {g : List AgentNode} {stor : Bool} {runner : Runner}
    {mr : Nat} :
    ∀ (ns₁ ns₂ : List String) (st : RunState) (tr₁ : List Effect) (st₁ : RunState),
      runLoop g false stor false runner mr ns₁ st = (tr₁, .ok st₁) →
      runLoop g false stor false runner mr (ns₁ ++ ns₂) st =
        (tr₁ ++ (runLoop g false stor false runner mr ns₂ st₁).1,
         (runLoop g false stor false runner mr ns₂ st₁).2) := by
  intro ns₁
  induction ns₁ with
  | nil =>
    intro ns₂ st tr₁ st₁ h
    have h1 : tr₁ = [] ∧ st₁ = st := by
      unfold runLoop at h
      cases h
      exact ⟨rfl, rfl⟩
    obtain ⟨rfl, rfl⟩ := h1
    simp
  | cons n rest ih =>
    intro ns₂ st tr₁ st₁ h
    rw [runLoop_cons] at h
    rw [show (n :: rest) ++ ns₂ = n :: (rest ++ ns₂) from rfl, runLoop_cons]
    cases hp : processAgent g false stor false runner mr st n with
    | mk trn resn =>
      rw [hp] at h
      cases resn with
      | error e1 => simp at h
      | ok stn =>
        dsimp only at h ⊢
        cases hr : runLoop g false stor false runner mr rest stn with
        | mk trr resr =>
          rw [hr] at h
          cases resr with
          | error e2 => simp at h
          | ok str =>
            have htr : tr₁ = trn ++ trr := by
              cases h
              rfl
            have hst : st₁ = str := by
              cases h
              rfl
            subst htr hst
            rw [ih ns₂ stn trr st₁ hr]
            rw [List.append_assoc]

lemma runLoop_basic {g : List AgentNode} {stor : Bool} {runner : Runner}
    {mr : Nat} :
    ∀ (ns : List String) (st : RunState), (∀ n ∈ ns, n ∈ nodeNames g) →
      ∃ tr st', runLoop g false stor false runner mr ns st = (tr, .ok st') ∧
        (∀ nm c, Effect.runnerCall nm c ∈ tr → nm ∈ ns) ∧
        (∀ nm, Effect.afterHooks nm ∈ tr → nm ∈ ns) ∧
        (∀ u, (∀ n ∈ ns, ∀ b ∈ g, b.name = n → keyOf b ≠ u) →
          lookupOut st'.outputs u = lookupOut st.outputs u) := by
  intro ns
  induction ns with
  | nil =>
    intro st _
    exact ⟨[], st, rfl, by simp, by simp, fun u _ => rfl⟩
  | cons n rest ih =>
    intro st hns
    have hfs : (g.find? (fun c => c.name == n)).isSome = true := by
      rw [List.find?_isSome]
      obtain ⟨a, ha, rfl⟩ := mem_names_iff.mp (hns n (by simp))
      exact ⟨a, ha, by simp⟩
    obtain ⟨b, hf⟩ := Option.isSome_iff_exists.mp hfs
    have hbn : b.name = n := by
      have := List.find?_some hf
      simpa using this
    have hbg : b ∈ g := List.mem_of_find?_eq_some hf
    obtain ⟨trn, stn, hpn, houts, hshape, -, -, -⟩ := processAgent_real hf
    obtain ⟨trr, str, hrr, hrc, hah2, hstable⟩ := ih stn
      (fun n' hn' => hns n' (by simp [hn']))
    refine ⟨trn ++ trr, str, ?_, ?_, ?_, ?_⟩
    · rw [runLoop_cons, hpn]
      dsimp only
      rw [hrr]
    · intro nm c hmem
      rcases List.mem_append.mp hmem with h | h
      · rcases hshape _ h with h | h | h | ⟨s, h⟩ | h | h
        · injection h
        · injection h
        · injection h
        · injection h
        · injection h with h1 h2
          rw [h1, hbn]
          simp
        · injection h
      · exact List.mem_cons_of_mem _ (hrc nm c h)
    · intro nm hmem
      rcases List.mem_append.mp hmem with h | h
      · rcases hshape _ h with h | h | h | ⟨s, h⟩ | h | h
        · injection h
        · injection h
        · injection h with h1
          rw [h1, hbn]
          simp
        · injection h
        · injection h
        · injection h
      · exact List.mem_cons_of_mem _ (hah2 nm h)
    · intro u hkeys
      rw [hstable u (fun n' hn' b' hb' hb'n =>
        hkeys n' (by simp [hn']) b' hb' hb'n)]
      rw [houts]
      exact lookupOut_storeOut_other
        (Ne.symm (hkeys n (by simp) b hbg hbn))

lemma runLoop_real_x {g : List AgentNode} {stor : Bool} {runner : Runner}
    {mr : Nat} (hN : (nodeNames g).Nodup) {x : AgentNode} (hx : x ∈ g) :
    ∀ (ns : List String) (st : RunState), ns.Nodup →
      (∀ n ∈ ns, n ∈ nodeNames g) → x.name ∈ ns →
      ∃ tr st', runLoop g false stor false runner mr ns st = (tr, .ok st') ∧
        ((∀ b ∈ g, keyOf b = keyOf x → b = x) →
          lookupOut st'.outputs (keyOf x) = some (finalOutput runner mr x)) ∧
        Effect.beforeHooks x.name ∈ tr ∧
        (Effect.afterHooks x.name ∈ tr ↔
          (runnerOutcome runner x.name 0 mr).isOk = true) ∧
        (∀ u out₀, inputOf x = some u → lookupOut st.outputs u = some out₀ →
          (∀ n ∈ ns, ∀ b ∈ g, b.name = n → keyOf b ≠ u) →
          Effect.runnerCall x.name (some out₀.data) ∈ tr ∧
          ∀ c, Effect.runnerCall x.name c ∈ tr → c = some out₀.data) := by
  intro ns
  induction ns with
  | nil =>
    intro st _ _ hmem
    simp at hmem
  | cons n rest ih =>
    intro st hnodup hsub hmem
    have hnodup' : rest.Nodup := hnodup.of_cons
    by_cases hn : n = x.name
    · subst hn
      have hxrest : x.name ∉ rest := by
        have := List.nodup_cons.mp hnodup
        exact this.1
      have hf : g.find? (fun c => c.name == x.name) = some x :=
        find?_name_nodup hN hx
      obtain ⟨trx, st₁, hpx, houts, hshape, hrc, hbh, hah⟩ := processAgent_real hf
      obtain ⟨trr, str, hrr, hrcR, hahR, hstable⟩ :=
        runLoop_basic rest st₁ (fun n' hn' => hsub n' (by simp [hn']))
      have hloop : runLoop g false stor false runner mr (x.name :: rest) st =
          (trx ++ trr, .ok str) := by
        rw [runLoop_cons, hpx]
        dsimp only
        rw [hrr]
      refine ⟨trx ++ trr, str, hloop, ?_, ?_, ?_, ?_⟩
      · intro hkx
        rw [hstable (keyOf x) ?_, houts, lookupOut_storeOut_self]
        intro n' hn' b hb hbn
        intro hkeq
        have hbx : b = x := hkx b hb hkeq
        rw [hbx] at hbn
        rw [← hbn] at hn'
        exact hxrest hn'
      · exact List.mem_append.mpr (Or.inl hbh)
      · constructor
        · intro h
          rcases List.mem_append.mp h with h | h
          · exact hah.mp h
          · exact absurd (hahR _ h) hxrest
        · intro h
          exact List.mem_append.mpr (Or.inl (hah.mpr h))
      · intro u out₀ hu hlk hkeys
        have hctx : contextOf st.outputs x = some out₀.data := by
          unfold contextOf
          rw [hu]
          dsimp only
          rw [hlk]
          rfl
        constructor
        · rw [← hctx]
          exact List.mem_append.mpr (Or.inl hrc)
        · intro c hc
          rcases List.mem_append.mp hc with h | h
          · rcases hshape _ h with h | h | h | ⟨s, h⟩ | h | h
            · injection h
            · injection h
            · injection h
            · injection h
            · injection h with h1 h2
              rw [h2, hctx]
            · injection h
          · exact absurd (hrcR _ _ h) hxrest
    · have hxrest : x.name ∈ rest := by
        rcases List.mem_cons.mp hmem with h | h
        · exact absurd h.symm hn
        · exact h
      have hfs : (g.find? (fun c => c.name == n)).isSome = true := by
        rw [List.find?_isSome]
        obtain ⟨a, ha, rfl⟩ := mem_names_iff.mp (hsub n (by simp))
        exact ⟨a, ha, by simp⟩
      obtain ⟨b, hf⟩ := Option.isSome_iff_exists.mp hfs
      have hbn : b.name = n := by
        have := List.find?_some hf
        simpa using this
      have hbg : b ∈ g := List.mem_of_find?_eq_some hf
      obtain ⟨trn, st₁, hpn, houts, hshape, -, -, -⟩ := processAgent_real hf
      obtain ⟨trr, str, hrr, hlook, hbhR, hahR, hrcR⟩ :=
        ih st₁ hnodup' (fun n' hn' => hsub n' (by simp [hn'])) hxrest
      have hloop : runLoop g false stor false runner mr (n :: rest) st =
          (trn ++ trr, .ok str) := by
        rw [runLoop_cons, hpn]
        dsimp only
        rw [hrr]
      have hnx : b.name ≠ x.name := by
        rw [hbn]
        exact hn
      refine ⟨trn ++ trr, str, hloop, hlook, ?_, ?_, ?_⟩
      · exact List.mem_append.mpr (Or.inr hbhR)
      · constructor
        · intro h
          rcases List.mem_append.mp h with h | h
          · exfalso
            rcases hshape _ h with h | h | h | ⟨s, h⟩ | h | h
            · injection h
            · injection h
            · injection h with h1
              exact hnx h1.symm
            · injection h
            · injection h
            · injection h
          · exact hahR.mp h
        · intro h
          exact List.mem_append.mpr (Or.inr (hahR.mpr h))
      · intro u out₀ hu hlk hkeys
        have hlk₁ : lookupOut st₁.outputs u = some out₀ := by
          rw [houts, lookupOut_storeOut_other (Ne.symm (hkeys n (by simp) b hbg hbn))]
          exact hlk
        obtain ⟨hmemR, huniR⟩ := hrcR u out₀ hu hlk₁
          (fun n' hn' b' hb' hb'n => hkeys n' (by simp [hn']) b' hb' hb'n)
        constructor
        · exact List.mem_append.mpr (Or.inr hmemR)
        · intro c hc
          rcases List.mem_append.mp hc with h | h
          · exfalso
            rcases hshape _ h with h | h | h | ⟨s, h⟩ | h | h
            · injection h
            · injection h
            · injection h
            · injection h
            · injection h with h1 h2
              exact hnx h1.symm
            · injection h
          · exact huniR c h

lemma execute_flow_real {g : List AgentNode} {wn : String} {stor : Bool}
    {runner : Runner} {mr : Nat} (hA : hasCycle g = false) :
    execute_flow g wn false stor false runner mr =
      ((runLoop g false stor false runner mr (execOrderList g) ⟨[], 0, 0⟩).1,
       match (runLoop g false stor false runner mr (execOrderList g) ⟨[], 0, 0⟩).2 with
       | .ok st => .ok ⟨wn, (execOrderList g).length, st.successful, st.failed,
           st.outputs⟩
       | .error e => .error e) := by
  unfold execute_flow getExecutionOrder
  rw [hA]
  dsimp only
  simp only [Bool.false_and, Bool.false_eq_true, if_false]
  cases h : runLoop g false stor false runner mr (execOrderList g) ⟨[], 0, 0⟩ with
  | mk tr res =>
    cases res with
    | ok st => rfl
    | error e => rfl

/-- C5 (amended): on a real run (without the broken state manager), after
every agent finishes an output is recorded under its output key — the
success payload or the error-shaped payload per the retry outcome — and
before_agent hooks fired; after_agent hooks fire exactly when the agent
succeeded, so they are skipped after an exhausted failure, and no
ExecutionState is persisted (compare C2). -/
theorem c5_after_agent (g : List AgentNode) (wn : String) (stor : Bool)
    (runner : Runner) (mr : Nat)
    (hN : (nodeNames g).Nodup) (hC : ClosedB g = true)
    (hA : ∀ p, isCycle g p = false)
    (hUK : ∀ y ∈ g, ∀ z ∈ g, keyOf y = keyOf z → y = z)
    (x : AgentNode) (hx : x ∈ g) :
    ∃ tr s, execute_flow g wn false stor false runner mr = (tr, .ok s) ∧
      lookupOut s.outputs (keyOf x) = some (finalOutput runner mr x) ∧
      Effect.beforeHooks x.name ∈ tr ∧
      (Effect.afterHooks x.name ∈ tr ↔
        (runnerOutcome runner x.name 0 mr).isOk = true) := by
  have hhc := hasCycle_false_of_no_cycle hC hA
  have hord : x.name ∈ execOrderList g :=
    (mem_execOrder hN hC hhc).mpr (List.mem_map_of_mem _ hx)
  obtain ⟨tr, st', hloop, hlook, hbh, hah, -⟩ :=
    runLoop_real_x hN hx (execOrderList g)
      ⟨[], 0, 0⟩ (execOrder_nodup hN hC) (fun n hn => execOrder_subset_names hn)
      hord
  refine ⟨tr, ⟨wn, (execOrderList g).length, st'.successful, st'.failed,
    st'.outputs⟩, ?_, hlook (fun b hb hk => hUK b hb x hx hk), hbh, hah⟩
  rw [execute_flow_real hhc, hloop]

/-- C4 (amended): a dependent agent always executes (it is never
auto-skipped) and, provided the upstream's output key equals its agent
name (the default) and no other agent of the weave declares that name
as its output key, the dependent's resolved input context is exactly
the upstream's recorded payload — the error-shaped payload when the
upstream exhausted its retries.  The second proviso is needed because
outputs are stored by output key yet resolved by upstream agent name:
in the concrete shadowing run of the second conjunct, agent z re-uses
upstream a's name as its output key, overwrites the recorded entry,
and dependent b's only runner call carries z's payload instead of a's.
A distinct upstream key instead leaves the context empty (see the
counterexample). -/
theorem c4_dependent_gets_upstream_payload :
    (∀ (g : List AgentNode) (wn : String) (stor : Bool) (runner : Runner)
      (mr : Nat), (nodeNames g).Nodup → ClosedB g = true →
      (∀ p, isCycle g p = false) →
      ∀ (a b : AgentNode), a ∈ g → b ∈ g →
      (∀ y ∈ g, y.name ≠ a.name → keyOf y ≠ a.name) →
      inputOf b = some a.name → keyOf a = a.name →
      ∃ tr s, execute_flow g wn false stor false runner mr = (tr, .ok s) ∧
        Effect.runnerCall b.name (some (finalOutput runner mr a).data) ∈ tr ∧
        ∀ c, Effect.runnerCall b.name c ∈ tr →
          c = some (finalOutput runner mr a).data) ∧
    (execute_flow
        [⟨"a", none, none, false, none⟩, ⟨"z", none, some "a", false, none⟩,
         ⟨"b", some "a", none, false, none⟩]
        "w" false false false (fun n _ => .ok ("out-" ++ n)) 0).1.filter
      (isRunnerCallOf "b") = [Effect.runnerCall "b" (some (.llm "out-z"))] := by
  refine ⟨?_, by decide⟩
  intro g wn stor runner mr hN hC hA a b ha hb hNC hinp hkey
  have hhc := hasCycle_false_of_no_cycle hC hA
  have hidx := execOrder_edge hN hC hhc hb hinp
  have hao : a.name ∈ execOrderList g :=
    (mem_execOrder hN hC hhc).mpr (List.mem_map_of_mem _ ha)
  have hbo : b.name ∈ execOrderList g :=
    (mem_execOrder hN hC hhc).mpr (List.mem_map_of_mem _ hb)
  have hab : a ≠ b := by
    intro heq
    subst heq
    have hpar : parentOf g a.name = some a.name := by
      rw [parentOf_name hN ha]
      exact hinp
    have hcyc : walk g a.name 1 = some a.name := by
      rw [walk_one]
      exact hpar
    rw [hasCycle_of_cycle (by omega) hcyc] at hhc
    cases hhc
  have hnab : b.name ≠ a.name := by
    intro heq
    exact hab (List.inj_on_of_nodup_map hN ha hb heq.symm)
  obtain ⟨s, t, hst⟩ := List.append_of_mem hao
  have hnd : (execOrderList g).Nodup := execOrder_nodup hN hC
  rw [hst] at hnd
  have hns : s.Nodup ∧ (a.name :: t).Nodup ∧ s.Disjoint (a.name :: t) :=
    List.nodup_append.mp hnd
  have hat : a.name ∉ t := (List.nodup_cons.mp hns.2.1).1
  have hnt : t.Nodup := (List.nodup_cons.mp hns.2.1).2
  have hbt : b.name ∈ t := by
    rw [hst] at hbo
    rcases List.mem_append.mp hbo with hbs | hbc
    · exfalso
      have hia : List.indexOf a.name (execOrderList g) = s.length := by
        rw [hst, List.indexOf_append_of_not_mem
          (fun hmem => hns.2.2 hmem (by simp))]
        simp
      have hib : List.indexOf b.name (execOrderList g) < s.length := by
        rw [hst, List.indexOf_append_of_mem hbs]
        exact List.indexOf_lt_length.mpr hbs
      omega
    · rcases List.mem_cons.mp hbc with h | h
      · exact absurd h hnab
      · exact h
  have hbs : b.name ∉ s := fun hmem => hns.2.2 hmem (by simp [hbt])
  have hsub : ∀ n ∈ execOrderList g, n ∈ nodeNames g :=
    fun n hn => execOrder_subset_names hn
  rw [hst] at hsub
  -- run the prefix
  obtain ⟨tr₁, st₁, h₁, hrc₁, -, -⟩ := runLoop_basic s ⟨[], 0, 0⟩
    (fun n hn => hsub n (List.mem_append.mpr (Or.inl hn)))
  -- run a
  have hfa : g.find? (fun c => c.name == a.name) = some a :=
    find?_name_nodup hN ha
  obtain ⟨tra, st₂, hpa, houtsa, hshapea, -, -, -⟩ := processAgent_real hfa
  -- run the tail containing b
  obtain ⟨trt, st₃, hloopt, -, -, -, hrcpart⟩ :=
    runLoop_real_x hN hb t st₂ hnt
      (fun n hn => hsub n (by simp [hn])) hbt
  have hlk₂ : lookupOut st₂.outputs a.name = some (finalOutput runner mr a) := by
    rw [houtsa, hkey]
    exact lookupOut_storeOut_self
  have hkeys : ∀ n ∈ t, ∀ y ∈ g, y.name = n → keyOf y ≠ a.name := by
    intro n hn y hy hyn hkeq
    by_cases hya : y.name = a.name
    · rw [← hyn, hya] at hn
      exact hat hn
    · exact hNC y hy hya hkeq
  obtain ⟨hmemt, huniqt⟩ :=
    hrcpart a.name (finalOutput runner mr a) hinp hlk₂ hkeys
  -- assemble the full run
  have hmid : runLoop g false stor false runner mr (a.name :: t) st₁ =
      (tra ++ trt, .ok st₃) := by
    rw [runLoop_cons, hpa]
    dsimp only
    rw [hloopt]
  have hfull : runLoop g false stor false runner mr (execOrderList g) ⟨[], 0, 0⟩ =
      (tr₁ ++ (tra ++ trt), .ok st₃) := by
    rw [hst, runLoop_append s (a.name :: t) ⟨[], 0, 0⟩ tr₁ st₁ h₁, hmid]
  refine ⟨tr₁ ++ (tra ++ trt),
    ⟨wn, (execOrderList g).length, st₃.successful, st₃.failed, st₃.outputs⟩,
    ?_, ?_, ?_⟩
  · rw [execute_flow_real hhc, hfull]
  · exact List.mem_append.mpr (Or.inr (List.mem_append.mpr (Or.inr hmemt)))
  · intro c hc
    rcases List.mem_append.mp hc with h | h
    · exact absurd (hrc₁ _ _ h) hbs
    · rcases List.mem_append.mp h with h | h
      · exfalso
        rcases hshapea _ h with h | h | h | ⟨sd, h⟩ | h | h
        · injection h
        · injection h
        · injection h
        · injection h
        · injection h with h1 h2
          exact hnab h1
        · injection h
      · exact huniqt c h

/-- C4 counterexample: agent a declares output key res, so its payload is
recorded under res; dependent b resolves its input by the agent name a,
misses, and executes with an empty context instead of a's payload. -/
theorem c4_output_key_counterexample :
    execute_flow
        [⟨"a", none, some "res", false, none⟩, ⟨"b", some "a", none, false, none⟩]
        "w" false false false (fun n _ => .ok ("out-" ++ n)) 0 =
      ([Effect.beforeHooks "a", Effect.runnerCall "a" none, Effect.afterHooks "a",
        Effect.beforeHooks "b", Effect.runnerCall "b" none, Effect.afterHooks "b"],
       .ok ⟨"w", 2, 2, 0,
         [("res", ⟨"a", "res", .llm "out-a", "success"⟩),
          ("b", ⟨"b", "b", .llm "out-b", "success"⟩)]⟩) ∧
    [Effect.beforeHooks "a", Effect.runnerCall "a" none, Effect.afterHooks "a",
     Effect.beforeHooks "b", Effect.runnerCall "b" none,
     Effect.afterHooks "b"].filter (isRunnerCallOf "b") =
      [Effect.runnerCall "b" none] :=
  ⟨rfl, by decide⟩

/-- C5 counterexample: an agent that exhausts its retries is finalized
failed with its error-shaped output stored, yet no after_agent hook is
invoked and no state is persisted, contradicting the claim. -/
theorem c5_failure_skips_after_hooks_counterexample :
    execute_flow [⟨"a", none, none, false, none⟩] "w" false false false
        (fun _ _ => .error "E") 0 =
      ([Effect.beforeHooks "a", Effect.runnerCall "a" none],
       .ok ⟨"w", 1, 0, 1, [("a", ⟨"a", "a", .error "E", "failed"⟩)]⟩) ∧
    Effect.afterHooks "a" ∉ [Effect.beforeHooks "a", Effect.runnerCall "a" none] :=
  ⟨rfl, by decide⟩

/-- Witness for C4 with a failing upstream: b still executes and its only
runner call carries a's error-shaped payload as context. -/
theorem c4_dependent_gets_upstream_payload_witness :
    ∃ tr s, execute_flow
        [⟨"a", none, none, false, none⟩, ⟨"b", some "a", none, false, none⟩]
        "w" false false false
        (fun n _ => if n == "a" then .error "boom" else .ok "fine") 0 =
        (tr, .ok s) ∧
      Effect.runnerCall "b"
        (some (finalOutput (fun n _ => if n == "a" then .error "boom" else .ok "fine")
          0 ⟨"a", none, none, false, none⟩).data) ∈ tr ∧
      ∀ c, Effect.runnerCall "b" c ∈ tr →
        c = some (finalOutput
          (fun n _ => if n == "a" then .error "boom" else .ok "fine")
          0 ⟨"a", none, none, false, none⟩).data :=
  c4_dependent_gets_upstream_payload.1
    [⟨"a", none, none, false, none⟩, ⟨"b", some "a", none, false, none⟩]
    "w" false (fun n _ => if n == "a" then .error "boom" else .ok "fine") 0
    (by decide) (by decide) (isCycle_false_of_hasCycle_false (by decide))
    ⟨"a", none, none, false, none⟩ ⟨"b", some "a", none, false, none⟩
    (by decide) (by decide) (by decide) (by decide) (by decide)

/-- Witness for C5 on a one-agent weave with a succeeding runner. -/
theorem c5_after_agent_witness :
    ∃ tr s, execute_flow [⟨"a", none, none, false, none⟩] "w" false false false
        (fun _ _ => .ok "y") 1 = (tr, .ok s) ∧
      lookupOut s.outputs (keyOf ⟨"a", none, none, false, none⟩) =
        some (finalOutput (fun _ _ => .ok "y") 1 ⟨"a", none, none, false, none⟩) ∧
      Effect.beforeHooks "a" ∈ tr ∧
      (Effect.afterHooks "a" ∈ tr ↔
        (runnerOutcome (fun _ _ => .ok "y") "a" 0 1).isOk = true) :=
  c5_after_agent [⟨"a", none, none, false, none⟩] "w" false (fun _ _ => .ok "y") 1
    (by decide) (by decide) (isCycle_false_of_hasCycle_false (by decide))
    (by decide) ⟨"a", none, none, false, none⟩ (by decide)

end Weave
